import Mathlib

/-!
# RizeOs server: skill extraction and job matching

Shallow embedding of the two helper functions of `server/index.js`
(`extractSkillsFromText`, lines 95-115, and `calculateJobMatch`, lines 117-130),
of the request handlers that call them (`GET /api/jobs/recommendations`,
`POST /api/ai/extract-skills`), of `POST /api/jobs` and of the middleware
`authenticateToken`, together with the JavaScript primitives they call, and of the payment
gate of the job form (`src/pages/PostJob.jsx`, `src/contexts/WalletContext.jsx`).

Modelling conventions.

* A JavaScript string is a Lean `String` (a sequence of Unicode scalar values).
  `String.prototype.includes` is substring search.
* `String.prototype.toLowerCase` is a library primitive whose Unicode tables are not part
  of the repository; the embedded functions take it as the parameter `toLowerCase`.
  `toLowerCaseAscii` is its restriction to the Basic Latin block and is used to evaluate
  the functions on ASCII inputs, where both agree.
* `toUpperCase` is only ever applied to the first character of a vocabulary keyword, all
  of which are lower-case ASCII letters, so it is modelled by `Char.toUpper`.
* A JavaScript number that is finite and non-negative is a `Double`: a dyadic rational
  `num / den`.  Division and multiplication round the exact result to 53 significant bits,
  ties to even (IEEE 754 binary64, round-to-nearest-even).  The exponent range is not
  bounded; array lengths are below `2 ^ 32`, so no overflow or underflow can occur in the
  embedded code.  A non-finite result (division by zero) is `none`.
-/

namespace RizeOs

/-! ## JavaScript string primitives -/

/-- JavaScript `s.includes(searchString)`: does `searchString` occur in `s` as a
contiguous substring (the empty string always does). -/
def includes (s searchString : String) : Bool :=
  s.data.tails.any (fun t => searchString.data.isPrefixOf t)

/-- JavaScript `s.charAt(0)`: the first character as a string, or the empty string. -/
def charAt0 (s : String) : String := ⟨s.data.take 1⟩

/-- JavaScript `s.slice(1)`: the string without its first character. -/
def slice1 (s : String) : String := ⟨s.data.drop 1⟩

/-- JavaScript `toUpperCase` on the Basic Latin block. -/
def toUpperCaseAscii (s : String) : String := ⟨s.data.map Char.toUpper⟩

/-- JavaScript `toLowerCase` on the Basic Latin block. -/
def toLowerCaseAscii (s : String) : String := ⟨s.data.map Char.toLower⟩

/-- JavaScript `[...new Set(xs)]`: the distinct elements of `xs` in order of first
insertion. -/
def setSpread (xs : List String) : List String :=
  xs.foldl (fun acc x => if x ∈ acc then acc else acc ++ [x]) []

/-! ## JavaScript number primitives -/

/-- A finite non-negative binary64 value, represented as the rational `num / den`. -/
structure Double where
  num : Nat
  den : Nat
deriving DecidableEq, Repr

/-- The rational value of a `Double`. -/
def Double.toRat (x : Double) : ℚ := (x.num : ℚ) / (x.den : ℚ)

/-- Auxiliary for `bitLength`, by recursion on fuel. -/
def bitLengthAux : Nat → Nat → Nat
  | 0, _ => 0
  | fuel + 1, n => if n = 0 then 0 else bitLengthAux fuel (n / 2) + 1

/-- The number of binary digits of `n` (`0` for `n = 0`). -/
def bitLength (n : Nat) : Nat := bitLengthAux n n

/-- The integer nearest to `a / b`, ties to the even integer. -/
def roundNearestEven (a b : Nat) : Nat :=
  let q := a / b
  let r := a % b
  if 2 * r < b then q
  else if b < 2 * r then q + 1
  else if q % 2 = 0 then q else q + 1

/-- The binary64 value nearest to the exact rational `a / b` (for `0 < b`): the quotient
is scaled by a power of two into `[2 ^ 52, 2 ^ 53)`, rounded to the nearest integer with
ties to even, and scaled back. -/
def toDouble (a b : Nat) : Double :=
  if a = 0 then ⟨0, 1⟩ else
    let u := bitLength b + 53
    let la := bitLength a
    let d := if b * 2 ^ (la + 53) ≤ a * 2 ^ u then la + 1 else la
    ⟨roundNearestEven (a * 2 ^ u) (b * 2 ^ d) * 2 ^ d, 2 ^ u⟩

/-- A non-negative integer below `2 ^ 53` as a binary64 value (exact). -/
def Double.ofNat (n : Nat) : Double := ⟨n, 1⟩

/-- JavaScript `m / n` on two array lengths; `none` stands for the non-finite results
(`Infinity`, `NaN`) of a division by zero. -/
def fdiv (m n : Nat) : Option Double :=
  if n = 0 then none else some (toDouble m n)

/-- JavaScript `x * y` on finite non-negative numbers. -/
def fmul (x y : Double) : Double := toDouble (x.num * y.num) (x.den * y.den)

/-- JavaScript `Math.round(x)` for finite non-negative `x`: the integer `⌊x + 1/2⌋`
(halves go towards positive infinity). -/
def mathRound (x : Double) : Int := Int.ofNat ((2 * x.num + x.den) / (2 * x.den))

/-! ## `server/index.js` -/

/-- The array literal `skillKeywords` of `extractSkillsFromText`. -/
def skillKeywords : List String :=
  ["javascript", "python", "java", "react", "node.js", "angular", "vue.js",
   "html", "css", "typescript", "php", "ruby", "go", "rust", "swift",
   "kotlin", "c++", "c#", "sql", "mongodb", "postgresql", "mysql",
   "aws", "azure", "gcp", "docker", "kubernetes", "git", "linux",
   "machine learning", "ai", "data science", "blockchain", "web3",
   "solidity", "smart contracts", "defi", "nft", "ethereum", "solana"]

/-- The expression `skill.charAt(0).toUpperCase() + skill.slice(1)`. -/
def capitalizeFirst (skill : String) : String :=
  toUpperCaseAscii (charAt0 skill) ++ slice1 skill

/-- The function `extractSkillsFromText` of `server/index.js`.  The `forEach` loop pushes
onto `extractedSkills`; the unused value `doc` is not modelled. -/
def extractSkillsFromText (toLowerCase : String → String) (text : String) : List String :=
  let extractedSkills := skillKeywords.foldl
    (fun acc skill =>
      if includes (toLowerCase text) skill then acc ++ [capitalizeFirst skill] else acc)
    []
  setSpread extractedSkills

/-- The local constant `matches` of `calculateJobMatch`, computed from the two
lower-cased lists. -/
def jobMatches (userSkillsLower jobSkillsLower : List String) : List String :=
  userSkillsLower.filter (fun skill =>
    jobSkillsLower.any (fun jobSkill => includes jobSkill skill || includes skill jobSkill))

/-- The function `calculateJobMatch` of `server/index.js`.  The result is `some v` for the
integer `v` returned and `none` for a non-finite number. -/
def calculateJobMatch (toLowerCase : String → String) (userSkills jobSkills : List String) :
    Option Int :=
  if userSkills.length = 0 ∨ jobSkills.length = 0 then some 0 else
    let userSkillsLower := userSkills.map toLowerCase
    let jobSkillsLower := jobSkills.map toLowerCase
    let matched := jobMatches userSkillsLower jobSkillsLower
    (fdiv matched.length jobSkillsLower.length).map
      (fun ratio => mathRound (fmul ratio (Double.ofNat 100)))

/-! ## `server/index.js`: documents and request handlers

The document store and the HTTP layer are external.  A handler is embedded as a function of
the values its queries return and of the request body; its result is the response it sends
(and, where it writes, the collection after the write). -/

/-- A `User` document (`userSchema`), reduced to the field the embedded handlers read. -/
structure User where
  skills : List String
deriving DecidableEq, Repr

/-- A `Job` document (`jobSchema`), without `applicants` and `createdAt`. -/
structure Job where
  title : String
  description : String
  budget : Int
  location : Option String
  skills : List String
  jobType : String
  experienceLevel : String
  postedBy : String
  status : String
  paymentTxHash : Option String
deriving DecidableEq, Repr

/-- An element of the array `recommendations`: the fields of the job (`...job.toObject()`)
with `matchScore` and `reason`. -/
structure Recommendation where
  job : Job
  matchScore : Int
  reason : String
deriving DecidableEq, Repr

/-- The template literal of line 373, with the number printed in decimal. -/
def reasonText (matchScore : Int) : String :=
  "Matches " ++ toString matchScore ++ "% of your skills"

/-- The callback of `jobs.map` in `GET /api/jobs/recommendations` (lines 368-374). -/
def recommendJob (toLowerCase : String → String) (userSkills : List String) (job : Job) :
    Option Recommendation :=
  (calculateJobMatch toLowerCase userSkills job.skills).map
    (fun matchScore => ⟨job, matchScore, reasonText matchScore⟩)

/-- The call `jobs.map(job => ...)` of line 368; `none` if some score is not finite. -/
def scoreJobs (toLowerCase : String → String) (userSkills : List String) :
    List Job → Option (List Recommendation)
  | [] => some []
  | job :: rest =>
    match recommendJob toLowerCase userSkills job, scoreJobs toLowerCase userSkills rest with
    | some r, some rs => some (r :: rs)
    | _, _ => none

/-- The chain `.filter(job => job.matchScore > 30).sort((a, b) => b.matchScore -
a.matchScore).slice(0, 5)` of lines 375-377.  `Array.prototype.sort` is stable; it is
embedded as insertion sort, which is stable too. -/
def rankRecommendations (scored : List Recommendation) : List Recommendation :=
  ((scored.filter (fun r => decide (30 < r.matchScore))).insertionSort
    (fun a b => b.matchScore ≤ a.matchScore)).take 5

/-- The constant `recommendations` of `GET /api/jobs/recommendations` (lines 368-377), from
the user's skills and the jobs returned by the query of lines 363-366. -/
def recommendations (toLowerCase : String → String) (userSkills : List String)
    (jobs : List Job) : Option (List Recommendation) :=
  (scoreJobs toLowerCase userSkills jobs).map rankRecommendations

/-- What a run of the recommendations handler does: the response (`status`,
`recommendations`) and, for stating which jobs were scored, the list `scored` of the jobs
on which `calculateJobMatch` was called. -/
structure RecommendationsResult where
  status : Nat
  recommendations : List Recommendation
  scored : List Job
deriving DecidableEq, Repr

/-- The handler of `GET /api/jobs/recommendations` (lines 356-384).  `user` is the result
of `User.findById` (`none` for `null`) and `jobs` the result the query `Job.find` gives when
it is reached.  `none` if some score is not finite. -/
def getRecommendations (toLowerCase : String → String) (user : Option User)
    (jobs : List Job) : Option RecommendationsResult :=
  match user with
  | none => some ⟨200, [], []⟩
  | some u =>
    if u.skills.length = 0 then some ⟨200, [], []⟩
    else (recommendations toLowerCase u.skills jobs).map (fun recs => ⟨200, recs, jobs⟩)

/-- The response of `POST /api/ai/extract-skills`: the status and the JSON body, whose
`skills` field is absent in an error response. -/
structure ExtractSkillsResponse where
  status : Nat
  message : String
  skills : Option (List String)
deriving DecidableEq, Repr

/-- The handler of `POST /api/ai/extract-skills` (lines 446-464).  `text` is the field
`req.body.text` (`none` when absent); `!text` holds for an absent and for an empty text. -/
def extractSkillsHandler (toLowerCase : String → String) (text : Option String) :
    ExtractSkillsResponse :=
  match text with
  | none => ⟨400, "Text is required", none⟩
  | some t =>
    if t = "" then ⟨400, "Text is required", none⟩
    else
      let extractedSkills := extractSkillsFromText toLowerCase t
      ⟨200, "Extracted " ++ toString extractedSkills.length ++ " skills", some extractedSkills⟩

/-- A parsed JSON value, as `express.json()` leaves it in `req.body`; a number is given by
its exact value. -/
inductive JsValue where
  | null
  | bool (b : Bool)
  | number (value : ℚ)
  | string (s : String)
  | array (items : List JsValue)
  | object (props : List (String × JsValue))

/-- The body of a `POST /api/jobs` request (`none` for an absent field).  The handler
destructures the first seven fields; `others` holds every other property of the body, for
instance what a client sends about a payment, none of which the handler reads. -/
structure JobBody where
  title : Option JsValue
  description : Option JsValue
  budget : Option JsValue
  location : Option JsValue
  skills : Option JsValue
  jobType : Option JsValue
  experienceLevel : Option JsValue
  others : List (String × JsValue)

/-- The argument of `new Job({...})` (lines 332-341). -/
structure JobInput where
  title : Option JsValue
  description : Option JsValue
  budget : Option JsValue
  location : Option JsValue
  skills : Option JsValue
  jobType : Option JsValue
  experienceLevel : Option JsValue
  postedBy : String

/-- The object literal of lines 332-341: the seven destructured fields of the body and
`postedBy: req.user.userId`. -/
def jobInput (userId : String) (body : JobBody) : JobInput :=
  ⟨body.title, body.description, body.budget, body.location, body.skills, body.jobType,
    body.experienceLevel, userId⟩

/-- The response of `POST /api/jobs`. -/
structure PostJobResponse where
  status : Nat
  message : String
  job : Option Job
deriving DecidableEq, Repr

/-- The handler of `POST /api/jobs` (lines 328-354), for the authenticated user `userId`:
the response and the `jobs` collection after the request.  The two library calls are
parameters: `save input` is `new Job(input)` followed by `job.save()`, in which Mongoose
casts and validates the input against `jobSchema` and inserts the document (`none` when it
throws, as for a missing required field or a `postedBy` that is no ObjectId), and
`populate job` is `job.populate('postedBy', 'name')` (`none` when it throws; a `Job` shows
the populated poster by its id).  Whatever is thrown is answered by the `catch` block. -/
def postJob (save : JobInput → Option Job) (populate : Job → Option Job) (userId : String)
    (body : JobBody) (jobs : List Job) : PostJobResponse × List Job :=
  match save (jobInput userId body) with
  | none => (⟨500, "Server error", none⟩, jobs)
  | some job =>
    match populate job with
    | none => (⟨500, "Server error", none⟩, jobs ++ [job])
    | some populated => (⟨201, "Job posted successfully", some populated⟩, jobs ++ [job])

/-- JavaScript `s.split(' ')` on a list of characters: the pieces between single spaces
(one piece more than there are spaces). -/
def splitSpaceChars : List Char → List (List Char)
  | [] => [[]]
  | c :: cs =>
    if c = ' ' then [] :: splitSpaceChars cs
    else
      match splitSpaceChars cs with
      | [] => [[c]]
      | w :: ws => (c :: w) :: ws

/-- JavaScript `s.split(' ')`. -/
def splitSpace (s : String) : List String := (splitSpaceChars s.data).map String.mk

/-- The decoded token that `jwt.verify` hands to its callback and the middleware stores in
`req.user`. -/
structure TokenPayload where
  userId : String
deriving DecidableEq, Repr

/-- What `authenticateToken` does with a request: it sends a response, or it stores the
decoded token in `req.user` and calls `next()`. -/
inductive AuthResult where
  | response (status : Nat) (message : String)
  | next (user : TokenPayload)
deriving DecidableEq, Repr

/-- The middleware `authenticateToken` of `server/index.js` (lines 77-92).  `verify` is
`jwt.verify` with the server's secret (`none` when its callback receives an error) and
`authorization` is `req.headers['authorization']` (`none` for `undefined`).  The constant
`token` is `authHeader && authHeader.split(' ')[1]`: a falsy header itself, else the second
piece, which may be `undefined` (`none`). -/
def authenticateToken (verify : String → Option TokenPayload)
    (authorization : Option String) : AuthResult :=
  let token : Option String :=
    match authorization with
    | none => none
    | some authHeader => if authHeader = "" then some "" else (splitSpace authHeader)[1]?
  match token with
  | none => AuthResult.response 401 "Access token required"
  | some t =>
    if t = "" then AuthResult.response 401 "Access token required"
    else
      match verify t with
      | none => AuthResult.response 403 "Invalid token"
      | some user => AuthResult.next user

/-! ## `src/contexts/WalletContext.jsx` and `src/pages/PostJob.jsx`

The job form is embedded as a state machine: the state holds the three `useState` flags of
`PostJob` and the number of `POST /api/jobs` requests sent; an event is the run of one
handler, taken as atomic, together with what the outside world answers during that run. -/

/-- The values of `WalletContext` a handler sees: `wallet` (`none` for `null`) and
`connected`. -/
structure WalletState where
  wallet : Option String
  connected : Bool
deriving DecidableEq, Repr

/-- The value `sendPayment` returns: `false`, or an object with a `success` field. -/
inductive PaymentResult where
  | refused
  | sent (signature : String)
  | failed
deriving DecidableEq, Repr

/-- The truthiness of `result.success`. -/
def PaymentResult.success : PaymentResult → Bool
  | PaymentResult.sent _ => true
  | _ => false

/-- The function `sendPayment` of `WalletContext.jsx` (lines 93-129).  `transfer amount` is
what the ledger answers to the transfer of `amount` SOL to the admin wallet: the signature
of the confirmed transaction, or `none` when signing, sending or confirming throws. -/
def sendPayment (w : WalletState) (transfer : Double → Option String) (amount : Double) :
    PaymentResult :=
  if w.wallet.isNone || !w.connected then PaymentResult.refused
  else
    match transfer amount with
    | some signature => PaymentResult.sent signature
    | none => PaymentResult.failed

/-- The number literal `0.01` of `handlePayment`: the binary64 value nearest to `1 / 100`. -/
def platformFee : Double := toDouble 1 100

/-- The state of the `PostJob` component that the handlers read and write, with the number
of `axios.post('/api/jobs', formData)` requests sent so far. -/
structure PostJobState where
  paymentStep : Bool
  paymentComplete : Bool
  loading : Bool
  requestsSent : Nat
deriving DecidableEq, Repr

/-- The state of a freshly mounted `PostJob` component. -/
def PostJobState.initial : PostJobState := ⟨false, false, false, 0⟩

/-- The function `handlePayment` of `PostJob.jsx` (lines 60-82), run to completion. -/
def handlePayment (s : PostJobState) (w : WalletState) (transfer : Double → Option String) :
    PostJobState :=
  if !w.connected then s
  else
    let result := sendPayment w transfer platformFee
    if result.success then ⟨s.paymentStep, true, false, s.requestsSent⟩
    else ⟨s.paymentStep, s.paymentComplete, false, s.requestsSent⟩

/-- The function `handleSubmit` of `PostJob.jsx` (lines 84-104), run to completion; whether
the server accepts the request does not change the state kept here. -/
def handleSubmit (s : PostJobState) : PostJobState :=
  if !s.paymentComplete then ⟨true, s.paymentComplete, s.loading, s.requestsSent⟩
  else ⟨s.paymentStep, s.paymentComplete, false, s.requestsSent + 1⟩

/-- The events of the form: a submit, a click on a pay button (with the wallet state and the
ledger's answer at that time), a click on the cancel button of the payment panel
(`setPaymentStep(false)`), and an edit of a form field. -/
inductive PostJobEvent where
  | submit
  | pay (w : WalletState) (transfer : Double → Option String)
  | cancelPayment
  | edit

/-- One event of the form. -/
def PostJobState.step (s : PostJobState) : PostJobEvent → PostJobState
  | PostJobEvent.submit => handleSubmit s
  | PostJobEvent.pay w transfer => handlePayment s w transfer
  | PostJobEvent.cancelPayment => ⟨false, s.paymentComplete, s.loading, s.requestsSent⟩
  | PostJobEvent.edit => s

/-- The state after a sequence of events. -/
def PostJobState.run (s : PostJobState) (events : List PostJobEvent) : PostJobState :=
  events.foldl PostJobState.step s

/-- A job posting with the given title and skills, used in examples. -/
def exampleJob (title : String) (skills : List String) : Job :=
  ⟨title, "description", 100, none, skills, "full-time", "intermediate", "poster", "active",
    none⟩

/-! ## Reference notions used to state the properties -/

/-- The number of entries of `c`, counted with multiplicity, whose lower-cased form is a
substring of the lower-cased form of some entry of `j`, or has the lower-cased form of some
entry of `j` as a substring. -/
def matchCount (toLowerCase : String → String) (c j : List String) : Nat :=
  c.countP (fun s => decide (∃ t ∈ j,
    (toLowerCase s).data <:+: (toLowerCase t).data ∨
    (toLowerCase t).data <:+: (toLowerCase s).data))

/-- The exact rational `m / n * 100` rounded to the nearest integer, halves rounded up. -/
def roundHalfUpPercent (m n : Nat) : Int := ⌊(m : ℚ) / (n : ℚ) * 100 + 1 / 2⌋

/-! ## String primitives: basic facts -/

theorem includes_iff (s t : String) : includes s t = true ↔ t.data <:+: s.data := by
  unfold includes
  rw [List.any_eq_true, List.infix_iff_prefix_suffix]
  constructor
  · rintro ⟨x, hx, hp⟩
    exact ⟨x, List.isPrefixOf_iff_prefix.mp hp, (List.mem_tails _ _).mp hx⟩
  · rintro ⟨x, hp, hx⟩
    exact ⟨x, (List.mem_tails _ _).mpr hx, List.isPrefixOf_iff_prefix.mpr hp⟩

theorem includes_self (s : String) : includes s s = true :=
  (includes_iff s s).mpr (List.infix_refl _)

/-! ## Number primitives: rounding error of binary64 arithmetic -/

theorem bitLengthAux_zero (fuel : Nat) : bitLengthAux fuel 0 = 0 := by
  cases fuel <;> simp [bitLengthAux]

theorem bitLengthAux_bounds (fuel : Nat) :
    ∀ n, n ≤ fuel → n < 2 ^ bitLengthAux fuel n ∧ (0 < n → 2 ^ bitLengthAux fuel n ≤ 2 * n) := by
  induction fuel with
  | zero =>
    intro n hn
    have h0 : n = 0 := by omega
    subst h0
    simp [bitLengthAux]
  | succ fuel ih =>
    intro n hn
    by_cases h0 : n = 0
    · subst h0
      simp [bitLengthAux]
    · have hstep : bitLengthAux (fuel + 1) n = bitLengthAux fuel (n / 2) + 1 := by
        simp [bitLengthAux, h0]
      have hhalf : n / 2 ≤ fuel := by omega
      obtain ⟨h1, h2⟩ := ih (n / 2) hhalf
      rw [hstep, pow_succ]
      refine ⟨by omega, fun _ => ?_⟩
      by_cases hz : n / 2 = 0
      · rw [hz, bitLengthAux_zero]
        omega
      · have := h2 (by omega)
        omega

theorem lt_two_pow_bitLength (n : Nat) : n < 2 ^ bitLength n :=
  (bitLengthAux_bounds n n le_rfl).1

theorem two_pow_bitLength_le (n : Nat) (hn : 0 < n) : 2 ^ bitLength n ≤ 2 * n :=
  (bitLengthAux_bounds n n le_rfl).2 hn

theorem roundNearestEven_bounds (a b : Nat) (hb : 0 < b) :
    2 * (roundNearestEven a b * b) ≤ 2 * a + b ∧ 2 * a ≤ 2 * (roundNearestEven a b * b) + b := by
  have hdm : b * (a / b) + a % b = a := Nat.div_add_mod a b
  have hr : a % b < b := Nat.mod_lt a hb
  have hq : a / b * b = b * (a / b) := Nat.mul_comm _ _
  unfold roundNearestEven
  simp only
  split_ifs <;> (try simp only [Nat.add_mul, Nat.one_mul]) <;> omega


theorem toDouble_den_pos (a b : Nat) : 0 < (toDouble a b).den := by
  unfold toDouble
  split_ifs <;> simp

theorem toDouble_scaled_ge (a b : Nat) (ha : a ≠ 0) :
    b * 2 ^ (if b * 2 ^ (bitLength a + 53) ≤ a * 2 ^ (bitLength b + 53)
      then bitLength a + 1 else bitLength a) * 2 ^ 52 ≤ a * 2 ^ (bitLength b + 53) := by
  split_ifs with h
  · calc b * 2 ^ (bitLength a + 1) * 2 ^ 52 = b * 2 ^ (bitLength a + 53) := by ring
      _ ≤ a * 2 ^ (bitLength b + 53) := h
  · have h1 : 2 ^ bitLength a ≤ 2 * a := two_pow_bitLength_le a (Nat.pos_of_ne_zero ha)
    have h2 : b ≤ 2 ^ bitLength b := (lt_two_pow_bitLength b).le
    calc b * 2 ^ bitLength a * 2 ^ 52 ≤ b * (2 * a) * 2 ^ 52 := by gcongr
      _ = a * (b * 2 ^ 53) := by ring
      _ ≤ a * (2 ^ bitLength b * 2 ^ 53) := by gcongr
      _ = a * 2 ^ (bitLength b + 53) := by rw [pow_add]

theorem toDouble_scaled_lt (a b : Nat) (hb : 0 < b) :
    a * 2 ^ (bitLength b + 53) <
      b * 2 ^ (if b * 2 ^ (bitLength a + 53) ≤ a * 2 ^ (bitLength b + 53)
        then bitLength a + 1 else bitLength a) * 2 ^ 53 := by
  split_ifs with h
  · have h1 : a < 2 ^ bitLength a := lt_two_pow_bitLength a
    have h2 : 2 ^ bitLength b ≤ 2 * b := two_pow_bitLength_le b hb
    calc a * 2 ^ (bitLength b + 53) = a * (2 ^ bitLength b * 2 ^ 53) := by rw [pow_add]
      _ < 2 ^ bitLength a * (2 ^ bitLength b * 2 ^ 53) := by gcongr
      _ ≤ 2 ^ bitLength a * (2 * b * 2 ^ 53) := by gcongr
      _ = b * 2 ^ (bitLength a + 1) * 2 ^ 53 := by ring
  · calc a * 2 ^ (bitLength b + 53) < b * 2 ^ (bitLength a + 53) := not_le.mp h
      _ = b * 2 ^ bitLength a * 2 ^ 53 := by ring

theorem toDouble_error (a b : Nat) (hb : 0 < b) :
    |(toDouble a b).toRat - (a : ℚ) / (b : ℚ)| ≤ (a : ℚ) / (b : ℚ) / 2 ^ 53 := by
  by_cases ha : a = 0
  · subst ha
    simp [toDouble, Double.toRat]
  · obtain ⟨d, hd, h52⟩ : ∃ d, toDouble a b =
          ⟨roundNearestEven (a * 2 ^ (bitLength b + 53)) (b * 2 ^ d) * 2 ^ d,
            2 ^ (bitLength b + 53)⟩ ∧
          b * 2 ^ d * 2 ^ 52 ≤ a * 2 ^ (bitLength b + 53) :=
      ⟨_, by simp only [toDouble, if_neg ha], toDouble_scaled_ge a b ha⟩
    rw [hd]
    have hB : 0 < b * 2 ^ d := by positivity
    obtain ⟨hup, hlo⟩ := roundNearestEven_bounds (a * 2 ^ (bitLength b + 53)) (b * 2 ^ d) hB
    generalize roundNearestEven (a * 2 ^ (bitLength b + 53)) (b * 2 ^ d) = M at hup hlo
    generalize bitLength b + 53 = u at *
    have hupq : (2 : ℚ) * (M * (b * 2 ^ d)) ≤ 2 * (a * 2 ^ u) + b * 2 ^ d := by exact_mod_cast hup
    have hloq : (2 : ℚ) * (a * 2 ^ u) ≤ 2 * (M * (b * 2 ^ d)) + b * 2 ^ d := by exact_mod_cast hlo
    have h52q : (b : ℚ) * 2 ^ d * 2 ^ 52 ≤ a * 2 ^ u := by exact_mod_cast h52
    have hbq : (0 : ℚ) < b := by exact_mod_cast hb
    have hden : (0 : ℚ) < b * 2 ^ u := by positivity
    have e1 : (Double.mk (M * 2 ^ d) (2 ^ u)).toRat - (a : ℚ) / b
        = ((M : ℚ) * (b * 2 ^ d) - a * 2 ^ u) / (b * 2 ^ u) := by
      simp only [Double.toRat]
      push_cast
      field_simp
      ring
    have e2 : (a : ℚ) / b / 2 ^ 53 = (a * 2 ^ u / 2 ^ 53) / (b * 2 ^ u) := by
      field_simp
      ring
    rw [e1, e2, abs_div, abs_of_pos hden]
    apply div_le_div_of_nonneg_right _ hden.le
    rw [abs_le]
    constructor <;> norm_num at h52q ⊢ <;> linarith

theorem mathRound_eq_floor (x : Double) (hx : 0 < x.den) :
    mathRound x = ⌊x.toRat + 1 / 2⌋ := by
  symm
  rw [Int.floor_eq_iff]
  unfold mathRound Double.toRat
  have hd : (0 : ℚ) < x.den := by exact_mod_cast hx
  have hdm := Nat.div_add_mod (2 * x.num + x.den) (2 * x.den)
  have hr : (2 * x.num + x.den) % (2 * x.den) < 2 * x.den := Nat.mod_lt _ (by omega)
  generalize (2 * x.num + x.den) / (2 * x.den) = k at *
  generalize (2 * x.num + x.den) % (2 * x.den) = r at *
  have hdmq : (2 : ℚ) * x.den * k + r = 2 * x.num + x.den := by exact_mod_cast hdm
  have hrq : (r : ℚ) < 2 * x.den := by exact_mod_cast hr
  have hr0 : (0 : ℚ) ≤ r := by positivity
  have e : (x.num : ℚ) / x.den + 1 / 2 = (2 * x.num + x.den) / (2 * x.den) := by
    field_simp
    ring
  rw [e]
  simp only [Int.ofNat_eq_coe, Int.cast_natCast]
  constructor
  · rw [le_div_iff₀ (by positivity)]
    linarith
  · rw [div_lt_iff₀ (by positivity)]
    linarith


theorem percent_den_pos (m n : Nat) :
    0 < (fmul (toDouble m n) (Double.ofNat 100)).den :=
  toDouble_den_pos _ _

theorem percent_error (m n : Nat) (hn : 0 < n) :
    |(fmul (toDouble m n) (Double.ofNat 100)).toRat - (m : ℚ) / (n : ℚ) * 100|
      ≤ (m : ℚ) / (n : ℚ) * 100 * (3 / 2 ^ 53) := by
  have h1 := toDouble_error m n hn
  have hd1 := toDouble_den_pos m n
  have h2 := toDouble_error ((toDouble m n).num * 100) ((toDouble m n).den * 1) (by omega)
  have hx : (0 : ℚ) ≤ (m : ℚ) / (n : ℚ) := by positivity
  have e : (((toDouble m n).num * 100 : ℕ) : ℚ) / (((toDouble m n).den * 1 : ℕ) : ℚ)
      = (toDouble m n).toRat * 100 := by
    simp only [Double.toRat]
    push_cast
    ring
  unfold fmul Double.ofNat
  simp only
  rw [e] at h2
  generalize (toDouble ((toDouble m n).num * 100) ((toDouble m n).den * 1)).toRat = q2 at *
  generalize (toDouble m n).toRat = q1 at *
  generalize (m : ℚ) / (n : ℚ) = x at *
  rw [abs_le] at h1 h2 ⊢
  obtain ⟨h1a, h1b⟩ := h1
  obtain ⟨h2a, h2b⟩ := h2
  have hε : (0 : ℚ) ≤ x / 2 ^ 53 := by positivity
  have hq1 : q1 ≤ x + x / 2 ^ 53 := by linarith
  have hq1' : q1 * 100 / 2 ^ 53 ≤ (x + x / 2 ^ 53) * 100 / 2 ^ 53 := by
    gcongr
  constructor <;> norm_num at * <;> nlinarith


theorem percent_gap_above (m n : Nat) (hn : 0 < n) (k : Int)
    (h : (m : ℚ) / (n : ℚ) * 100 < k + 1 / 2) :
    (m : ℚ) / (n : ℚ) * 100 + 1 / (2 * n) ≤ k + 1 / 2 := by
  have hnq : (0 : ℚ) < n := by exact_mod_cast hn
  have h1 : (200 : ℚ) * m < (2 * k + 1) * n := by
    have := mul_lt_mul_of_pos_right h (by positivity : (0 : ℚ) < 2 * n)
    have e : (m : ℚ) / n * 100 * (2 * n) = 200 * m := by
      field_simp
      ring
    rw [e] at this
    linarith
  have h2 : (200 : ℤ) * m < (2 * k + 1) * n := by exact_mod_cast h1
  have h3 : (200 : ℤ) * m + 1 ≤ (2 * k + 1) * n := by omega
  have h4 : (200 : ℚ) * m + 1 ≤ (2 * k + 1) * n := by exact_mod_cast h3
  have e : (m : ℚ) / n * 100 + 1 / (2 * n) = (200 * m + 1) / (2 * n) := by
    field_simp
    ring
  rw [e, div_le_iff₀ (by positivity)]
  linarith

theorem percent_gap_below (m n : Nat) (hn : 0 < n) (k : Int)
    (h : (k : ℚ) - 1 / 2 < (m : ℚ) / (n : ℚ) * 100) :
    (k : ℚ) - 1 / 2 + 1 / (2 * n) ≤ (m : ℚ) / (n : ℚ) * 100 := by
  have hnq : (0 : ℚ) < n := by exact_mod_cast hn
  have h1 : (2 * k - 1) * n < (200 : ℚ) * m := by
    have := mul_lt_mul_of_pos_right h (by positivity : (0 : ℚ) < 2 * n)
    have e : (m : ℚ) / n * 100 * (2 * n) = 200 * m := by
      field_simp
      ring
    rw [e] at this
    linarith
  have h2 : (2 * k - 1) * n < (200 : ℤ) * m := by exact_mod_cast h1
  have h3 : (2 * k - 1) * n + 1 ≤ (200 : ℤ) * m := by omega
  have h4 : (2 * k - 1) * n + 1 ≤ (200 : ℚ) * m := by exact_mod_cast h3
  have e : (m : ℚ) / n * 100 = (200 * m) / (2 * n) := by
    field_simp
    ring
  have e2 : (k : ℚ) - 1 / 2 + 1 / (2 * n) = ((2 * k - 1) * n + 1) / (2 * n) := by
    field_simp
    ring
  rw [e, e2]
  exact div_le_div_of_nonneg_right h4 (by positivity)

theorem percent_error_small (m n : Nat) (hn : 0 < n) (hm : m < 2 ^ 32) :
    (m : ℚ) / (n : ℚ) * 100 * (3 / 2 ^ 53) < 1 / (2 * n) := by
  have hnq : (0 : ℚ) < n := by exact_mod_cast hn
  have hmq : (m : ℚ) < 4294967296 := by exact_mod_cast hm
  have e : (m : ℚ) / n * 100 * (3 / 2 ^ 53) = (600 * m / 2 ^ 53) / (2 * n) := by
    field_simp
    ring
  rw [e]
  apply div_lt_div_of_pos_right _ (by positivity)
  rw [div_lt_one (by positivity)]
  norm_num
  linarith

theorem percent_round_le (m n : Nat) (hn : 0 < n) (hm : m < 2 ^ 32) :
    mathRound (fmul (toDouble m n) (Double.ofNat 100)) ≤ roundHalfUpPercent m n := by
  rw [mathRound_eq_floor _ (percent_den_pos m n)]
  unfold roundHalfUpPercent
  have herr := percent_error m n hn
  have hsmall := percent_error_small m n hn hm
  have hgap := percent_gap_above m n hn ⌊(m : ℚ) / (n : ℚ) * 100 + 1 / 2⌋
    (by have := Int.lt_floor_add_one ((m : ℚ) / (n : ℚ) * 100 + 1 / 2); linarith)
  rw [abs_le] at herr
  rw [← Int.lt_add_one_iff, Int.floor_lt]
  push_cast
  linarith [herr.2]

theorem percent_round_ge_sub_one (m n : Nat) (hn : 0 < n) (hm : m < 2 ^ 32) :
    roundHalfUpPercent m n - 1 ≤ mathRound (fmul (toDouble m n) (Double.ofNat 100)) := by
  rw [mathRound_eq_floor _ (percent_den_pos m n)]
  unfold roundHalfUpPercent
  have herr := percent_error m n hn
  have hsmall := percent_error_small m n hn hm
  have hfl := Int.floor_le ((m : ℚ) / (n : ℚ) * 100 + 1 / 2)
  have hn1 : (1 : ℚ) / (2 * n) ≤ 1 / 2 := by
    have : (1 : ℚ) ≤ n := by exact_mod_cast hn
    apply one_div_le_one_div_of_le (by norm_num)
    linarith
  rw [abs_le] at herr
  rw [Int.le_floor]
  push_cast
  linarith [herr.1]

theorem percent_round_ge_of_not_tie (m n : Nat) (hn : 0 < n) (hm : m < 2 ^ 32)
    (htie : Int.fract ((m : ℚ) / (n : ℚ) * 100) ≠ 1 / 2) :
    roundHalfUpPercent m n ≤ mathRound (fmul (toDouble m n) (Double.ofNat 100)) := by
  rw [mathRound_eq_floor _ (percent_den_pos m n)]
  unfold roundHalfUpPercent
  have herr := percent_error m n hn
  have hsmall := percent_error_small m n hn hm
  have hfl := Int.floor_le ((m : ℚ) / (n : ℚ) * 100 + 1 / 2)
  have hne : (⌊(m : ℚ) / (n : ℚ) * 100 + 1 / 2⌋ : ℚ) - 1 / 2 ≠ (m : ℚ) / (n : ℚ) * 100 := by
    intro heq
    apply htie
    rw [← heq]
    have e : (⌊(m : ℚ) / (n : ℚ) * 100 + 1 / 2⌋ : ℚ) - 1 / 2
        = ((⌊(m : ℚ) / (n : ℚ) * 100 + 1 / 2⌋ - 1 : ℤ) : ℚ) + 1 / 2 := by
      push_cast
      ring
    rw [e, Int.fract_int_add, Int.fract_eq_iff]
    refine ⟨by norm_num, by norm_num, 0, by simp⟩
  have hlt : (⌊(m : ℚ) / (n : ℚ) * 100 + 1 / 2⌋ : ℚ) - 1 / 2 < (m : ℚ) / (n : ℚ) * 100 :=
    lt_of_le_of_ne (by linarith) hne
  have hgap := percent_gap_below m n hn _ hlt
  rw [abs_le] at herr
  rw [Int.le_floor]
  linarith [herr.1]

theorem percent_round_le_hundred (m n : Nat) (hn : 0 < n) (hmn : m ≤ n) :
    mathRound (fmul (toDouble m n) (Double.ofNat 100)) ≤ 100 := by
  rw [mathRound_eq_floor _ (percent_den_pos m n)]
  have herr := percent_error m n hn
  have hnq : (0 : ℚ) < n := by exact_mod_cast hn
  have hx : (m : ℚ) / (n : ℚ) ≤ 1 := by
    rw [div_le_one hnq]
    exact_mod_cast hmn
  have hx0 : (0 : ℚ) ≤ (m : ℚ) / (n : ℚ) := by positivity
  rw [abs_le] at herr
  rw [← Int.lt_add_one_iff, Int.floor_lt]
  push_cast
  have : (m : ℚ) / (n : ℚ) * 100 * (3 / 2 ^ 53) ≤ 1 * 100 * (3 / 2 ^ 53) := by gcongr
  norm_num at this ⊢
  linarith [herr.2]

theorem mathRound_nonneg (x : Double) : 0 ≤ mathRound x := by
  unfold mathRound
  exact Int.ofNat_nonneg _

/-! ## The embedded functions in closed form -/

theorem setSpread_foldl (acc xs : List String) (hacc : acc.Nodup) (hxs : xs.Nodup)
    (hdisj : ∀ x ∈ xs, x ∉ acc) :
    xs.foldl (fun acc x => if x ∈ acc then acc else acc ++ [x]) acc = acc ++ xs := by
  induction xs generalizing acc with
  | nil => simp
  | cons x xs ih =>
    have hx : x ∉ acc := hdisj x (List.mem_cons_self _ _)
    rw [List.foldl_cons, if_neg hx]
    rw [List.nodup_cons] at hxs
    rw [ih (acc ++ [x]) ?_ hxs.2 ?_]
    · simp
    · rw [List.nodup_append]
      refine ⟨hacc, by simp, ?_⟩
      intro a ha hb
      rw [List.mem_singleton] at hb
      exact hx (hb ▸ ha)
    · intro y hy hmem
      rw [List.mem_append, List.mem_singleton] at hmem
      rcases hmem with h | h
      · exact hdisj y (List.mem_cons_of_mem _ hy) h
      · exact hxs.1 (h ▸ hy)

theorem setSpread_of_nodup (xs : List String) (h : xs.Nodup) : setSpread xs = xs := by
  unfold setSpread
  rw [setSpread_foldl [] xs List.nodup_nil h (by simp)]
  simp

theorem foldl_push_eq (p : String → Bool) (f : String → String) (acc ks : List String) :
    ks.foldl (fun acc skill => if p skill then acc ++ [f skill] else acc) acc
      = acc ++ (ks.filter p).map f := by
  induction ks generalizing acc with
  | nil => simp
  | cons k ks ih =>
    rw [List.foldl_cons, ih]
    by_cases hk : p k <;> simp [hk, List.filter_cons]

theorem extractSkillsFromText_eq (toLowerCase : String → String) (text : String) :
    extractSkillsFromText toLowerCase text
      = (skillKeywords.filter (fun k => includes (toLowerCase text) k)).map capitalizeFirst := by
  unfold extractSkillsFromText
  simp only
  rw [foldl_push_eq (fun k => includes (toLowerCase text) k) capitalizeFirst, List.nil_append]
  apply setSpread_of_nodup
  have h : (skillKeywords.map capitalizeFirst).Nodup := by decide
  exact (List.Sublist.map _ (List.filter_sublist _)).nodup h

theorem jobMatches_length (toLowerCase : String → String) (c j : List String) :
    (jobMatches (c.map toLowerCase) (j.map toLowerCase)).length = matchCount toLowerCase c j := by
  unfold jobMatches matchCount
  rw [← List.countP_eq_length_filter, List.countP_map]
  congr 1
  funext s
  simp only [Function.comp, List.any_map, Bool.decide_eq_true]
  rw [Bool.eq_iff_iff]
  simp only [List.any_eq_true, Bool.or_eq_true, includes_iff, decide_eq_true_eq, Function.comp]

theorem calculateJobMatch_of_ne_nil (toLowerCase : String → String) (c j : List String)
    (hc : c ≠ []) (hj : j ≠ []) :
    calculateJobMatch toLowerCase c j
      = some (mathRound (fmul (toDouble (matchCount toLowerCase c j) j.length)
          (Double.ofNat 100))) := by
  have hc0 : c.length ≠ 0 := by simpa using hc
  have hj0 : j.length ≠ 0 := by simpa using hj
  unfold calculateJobMatch
  rw [if_neg (by simp [hc0, hj0])]
  simp only [List.length_map, fdiv, if_neg hj0, Option.map_some', jobMatches_length]

/-! ## Auxiliary facts -/

theorem char_toLower_idem (c : Char) : c.toLower.toLower = c.toLower := by
  by_cases h : 65 ≤ c.toNat ∧ c.toNat ≤ 90
  · have e : c.toLower = Char.ofNat (c.toNat + 32) := by
      simp only [Char.toLower, ge_iff_le, h, and_self, if_true]
    rw [e]
    obtain ⟨h1, h2⟩ := h
    generalize c.toNat = n at h1 h2
    interval_cases n <;> decide
  · have e : c.toLower = c := by
      simp only [Char.toLower, ge_iff_le, h, if_false]
    rw [e, e]

theorem toLowerCaseAscii_idem (s : String) :
    toLowerCaseAscii (toLowerCaseAscii s) = toLowerCaseAscii s := by
  unfold toLowerCaseAscii
  congr 1
  simp only [List.map_map]
  apply List.map_congr_left
  intro c _
  exact char_toLower_idem c

theorem roundHalfUpPercent_mono (m m' n : Nat) (h : m ≤ m') :
    roundHalfUpPercent m n ≤ roundHalfUpPercent m' n := by
  unfold roundHalfUpPercent
  apply Int.floor_mono
  have : (m : ℚ) ≤ m' := by exact_mod_cast h
  gcongr

theorem matchCount_le_length (toLowerCase : String → String) (c j : List String) :
    matchCount toLowerCase c j ≤ c.length :=
  List.countP_le_length _

theorem calculateJobMatch_of_nil (toLowerCase : String → String) (c j : List String)
    (h : c = [] ∨ j = []) : calculateJobMatch toLowerCase c j = some 0 := by
  unfold calculateJobMatch
  rw [if_pos]
  rcases h with h | h <;> simp [h]

theorem calculateJobMatch_react_twice (toLowerCase : String → String) :
    calculateJobMatch toLowerCase ["react", "react"] ["react"] = some 200 := by
  rw [calculateJobMatch_of_ne_nil _ _ _ (by simp) (by simp)]
  have h : matchCount toLowerCase ["react", "react"] ["react"] = 2 := by
    simp [matchCount, List.infix_refl]
  rw [h]
  decide

theorem matchCount_nil_right (toLowerCase : String → String) (c : List String) :
    matchCount toLowerCase c [] = 0 := by
  simp [matchCount]

theorem calculateJobMatch_total (toLowerCase : String → String) (c j : List String) :
    ∃ v : Int, calculateJobMatch toLowerCase c j = some v ∧ 0 ≤ v ∧
      (matchCount toLowerCase c j ≤ j.length → v ≤ 100) := by
  by_cases hc : c = []
  · exact ⟨0, calculateJobMatch_of_nil _ _ _ (Or.inl hc), le_rfl, fun _ => by norm_num⟩
  · by_cases hj : j = []
    · exact ⟨0, calculateJobMatch_of_nil _ _ _ (Or.inr hj), le_rfl, fun _ => by norm_num⟩
    · exact ⟨_, calculateJobMatch_of_ne_nil _ _ _ hc hj, mathRound_nonneg _,
        fun h => percent_round_le_hundred _ _ (List.length_pos.mpr hj) h⟩

theorem calculateJobMatch_congr (toLowerCase : String → String) (c c' j j' : List String)
    (hc : c.map toLowerCase = c'.map toLowerCase)
    (hj : j.map toLowerCase = j'.map toLowerCase) :
    calculateJobMatch toLowerCase c j = calculateJobMatch toLowerCase c' j' := by
  have hcl : c.length = c'.length := by simpa using congrArg List.length hc
  have hjl : j.length = j'.length := by simpa using congrArg List.length hj
  unfold calculateJobMatch
  simp only [hc, hj, hcl, hjl]

/-! ## Properties of `calculateJobMatch` and `extractSkillsFromText` -/

/-- C1, as stated, fails: with 23 matching candidate skills and 40 job skills the exact
value `23 / 40 * 100` is `57.5`, which rounds half-up to `58`, but the binary64 product
`(23 / 40) * 100` lies just below `57.5` and `calculateJobMatch` returns `57`. -/
theorem calculateJobMatch_round_counterexample :
    calculateJobMatch toLowerCaseAscii (List.replicate 23 "a") (List.replicate 40 "a")
        = some 57 ∧
      roundHalfUpPercent
        (matchCount toLowerCaseAscii (List.replicate 23 "a") (List.replicate 40 "a"))
        (List.replicate 40 "a").length = 58 ∧
      calculateJobMatch toLowerCaseAscii (List.replicate 23 "a") (List.replicate 40 "a")
        ≠ some (roundHalfUpPercent
          (matchCount toLowerCaseAscii (List.replicate 23 "a") (List.replicate 40 "a"))
          (List.replicate 40 "a").length) := by
  have hm : matchCount toLowerCaseAscii (List.replicate 23 "a") (List.replicate 40 "a")
      = 23 := by decide
  have hr : roundHalfUpPercent 23 (List.replicate 40 "a").length = 58 := by
    unfold roundHalfUpPercent
    rw [Int.floor_eq_iff]
    norm_num
  have hv : calculateJobMatch toLowerCaseAscii (List.replicate 23 "a")
      (List.replicate 40 "a") = some 57 := by decide
  rw [hm, hr, hv]
  exact ⟨rfl, rfl, by decide⟩

/-- C1 (amended): for non-empty lists `c` (of fewer than `2 ^ 32` entries, as every
JavaScript array) and `j`, `calculateJobMatch c j` is `Math.round` of the binary64 value
of `(matchCount / length j) * 100`, where `matchCount` counts the entries of `c` whose
lower-cased form contains, or is contained in, the lower-cased form of some entry of `j`.
That result is the exact value `matchCount / length j * 100` rounded half-up, except
possibly when the exact value is a half-integer, where it may be one less. -/
theorem calculateJobMatch_round (toLowerCase : String → String) (c j : List String)
    (hc : c ≠ []) (hj : j ≠ []) (hlen : c.length < 2 ^ 32) :
    calculateJobMatch toLowerCase c j
        = some (mathRound (fmul (toDouble (matchCount toLowerCase c j) j.length)
            (Double.ofNat 100))) ∧
      (mathRound (fmul (toDouble (matchCount toLowerCase c j) j.length) (Double.ofNat 100))
          = roundHalfUpPercent (matchCount toLowerCase c j) j.length ∨
        (Int.fract ((matchCount toLowerCase c j : ℚ) / (j.length : ℚ) * 100) = 1 / 2 ∧
          mathRound (fmul (toDouble (matchCount toLowerCase c j) j.length) (Double.ofNat 100))
            = roundHalfUpPercent (matchCount toLowerCase c j) j.length - 1)) := by
  have hn : 0 < j.length := List.length_pos.mpr hj
  have hm : matchCount toLowerCase c j < 2 ^ 32 :=
    lt_of_le_of_lt (matchCount_le_length toLowerCase c j) hlen
  refine ⟨calculateJobMatch_of_ne_nil toLowerCase c j hc hj, ?_⟩
  have hle := percent_round_le _ _ hn hm
  have hge := percent_round_ge_sub_one _ _ hn hm
  by_cases htie : Int.fract ((matchCount toLowerCase c j : ℚ) / (j.length : ℚ) * 100) = 1 / 2
  · by_cases heq : mathRound (fmul (toDouble (matchCount toLowerCase c j) j.length)
        (Double.ofNat 100)) = roundHalfUpPercent (matchCount toLowerCase c j) j.length
    · exact Or.inl heq
    · exact Or.inr ⟨htie, by omega⟩
  · exact Or.inl (le_antisymm hle (percent_round_ge_of_not_tie _ _ hn hm htie))

/-- Witness for C1 (amended) at `c = ["React", "Node.js"]`, `j = ["React", "Python", "SQL"]`. -/
theorem calculateJobMatch_round_witness :
    calculateJobMatch toLowerCaseAscii ["React", "Node.js"] ["React", "Python", "SQL"]
        = some (mathRound (fmul (toDouble
            (matchCount toLowerCaseAscii ["React", "Node.js"] ["React", "Python", "SQL"])
            ["React", "Python", "SQL"].length) (Double.ofNat 100))) ∧
      (mathRound (fmul (toDouble
            (matchCount toLowerCaseAscii ["React", "Node.js"] ["React", "Python", "SQL"])
            ["React", "Python", "SQL"].length) (Double.ofNat 100))
          = roundHalfUpPercent
            (matchCount toLowerCaseAscii ["React", "Node.js"] ["React", "Python", "SQL"])
            ["React", "Python", "SQL"].length ∨
        (Int.fract ((matchCount toLowerCaseAscii ["React", "Node.js"]
            ["React", "Python", "SQL"] : ℚ) / (["React", "Python", "SQL"].length : ℚ) * 100)
            = 1 / 2 ∧
          mathRound (fmul (toDouble
            (matchCount toLowerCaseAscii ["React", "Node.js"] ["React", "Python", "SQL"])
            ["React", "Python", "SQL"].length) (Double.ofNat 100))
            = roundHalfUpPercent
              (matchCount toLowerCaseAscii ["React", "Node.js"] ["React", "Python", "SQL"])
              ["React", "Python", "SQL"].length - 1)) :=
  calculateJobMatch_round toLowerCaseAscii ["React", "Node.js"] ["React", "Python", "SQL"]
    (by decide) (by decide) (by decide)

/-- C2: for every text, `extractSkillsFromText` returns the vocabulary keywords that occur
as a substring of the lower-cased text, in vocabulary order, each with its first character
upper-cased; the vocabulary has 40 keywords and their emitted forms are the listed ones. -/
theorem extractSkillsFromText_vocabulary_order (toLowerCase : String → String)
    (text : String) :
    extractSkillsFromText toLowerCase text
        = (skillKeywords.filter
            (fun k => decide (k.data <:+: (toLowerCase text).data))).map capitalizeFirst ∧
      skillKeywords.length = 40 ∧
      skillKeywords.map capitalizeFirst =
        ["Javascript", "Python", "Java", "React", "Node.js", "Angular", "Vue.js",
         "Html", "Css", "Typescript", "Php", "Ruby", "Go", "Rust", "Swift",
         "Kotlin", "C++", "C#", "Sql", "Mongodb", "Postgresql", "Mysql",
         "Aws", "Azure", "Gcp", "Docker", "Kubernetes", "Git", "Linux",
         "Machine learning", "Ai", "Data science", "Blockchain", "Web3",
         "Solidity", "Smart contracts", "Defi", "Nft", "Ethereum", "Solana"] := by
  refine ⟨?_, by decide, by decide⟩
  rw [extractSkillsFromText_eq]
  congr 2
  funext k
  rw [Bool.eq_iff_iff, includes_iff, decide_eq_true_eq]

/-- C3: if the candidate list or the job list is empty, `calculateJobMatch` returns
exactly `0`. -/
theorem calculateJobMatch_empty (toLowerCase : String → String) (c j : List String)
    (h : c = [] ∨ j = []) : calculateJobMatch toLowerCase c j = some 0 :=
  calculateJobMatch_of_nil toLowerCase c j h

/-- Witness for C3: `calculateJobMatch([], ["react"]) = 0` and
`calculateJobMatch(["react"], []) = 0`. -/
theorem calculateJobMatch_empty_witness :
    calculateJobMatch toLowerCaseAscii [] ["react"] = some 0 ∧
      calculateJobMatch toLowerCaseAscii ["react"] [] = some 0 :=
  ⟨calculateJobMatch_empty toLowerCaseAscii [] ["react"] (Or.inl rfl),
    calculateJobMatch_empty toLowerCaseAscii ["react"] [] (Or.inr rfl)⟩

/-- C4, as stated, fails: for the candidate list `["JavaScript", "Java"]` and the job list
`["Java"]` both candidate skills match and the score is `200`, outside `[0, 100]`. -/
theorem calculateJobMatch_range_counterexample :
    ∃ v : Int, calculateJobMatch toLowerCaseAscii ["JavaScript", "Java"] ["Java"] = some v ∧
      ¬ (0 ≤ v ∧ v ≤ 100) :=
  ⟨200, by decide, by decide⟩

/-- C4 (amended): the match score is a non-negative integer, and it lies in `[0, 100]`
whenever the number of matching candidate skills is at most the number of job skills, in
particular whenever the candidate list is no longer than the job list. -/
theorem calculateJobMatch_range (toLowerCase : String → String) (c j : List String) :
    ∃ v : Int, calculateJobMatch toLowerCase c j = some v ∧ 0 ≤ v ∧
      (matchCount toLowerCase c j ≤ j.length → v ≤ 100) ∧
      (c.length ≤ j.length → v ≤ 100) := by
  obtain ⟨v, hv, h0, h100⟩ := calculateJobMatch_total toLowerCase c j
  exact ⟨v, hv, h0, h100,
    fun h => h100 (le_trans (matchCount_le_length toLowerCase c j) h)⟩

/-- Witness for C4 (amended) at `c = ["React", "Node.js"]`, `j = ["React", "Python", "SQL"]`,
where both side conditions hold. -/
theorem calculateJobMatch_range_witness :
    ∃ v : Int, calculateJobMatch toLowerCaseAscii ["React", "Node.js"]
        ["React", "Python", "SQL"] = some v ∧ 0 ≤ v ∧ v ≤ 100 ∧ v ≤ 100 :=
  (calculateJobMatch_range toLowerCaseAscii ["React", "Node.js"]
    ["React", "Python", "SQL"]).imp
    fun _ h => ⟨h.1, h.2.1, h.2.2.1 (by decide), h.2.2.2 (by decide)⟩

/-- C5: the match score is not clamped; for the candidate list `["react", "react"]` and the
job list `["react"]` it is `200`, which is greater than `100` (whatever the lower-casing
function). -/
theorem calculateJobMatch_not_clamped (toLowerCase : String → String) :
    ∃ v : Int, calculateJobMatch toLowerCase ["react", "react"] ["react"] = some v ∧
      v = 200 ∧ 100 < v :=
  ⟨200, calculateJobMatch_react_twice toLowerCase, rfl, by decide⟩

/-- C6: for non-empty lists `c` (of fewer than `2 ^ 32` entries, as every JavaScript array)
and `j`, the matching skills are a sublist of the lower-cased candidate list (each candidate
entry contributes at most once), so there are at most `length c` of them, and the score is
at most `length c / length j * 100` rounded half-up. -/
theorem calculateJobMatch_le_candidate_ratio (toLowerCase : String → String)
    (c j : List String) (hc : c ≠ []) (hj : j ≠ []) (hlen : c.length < 2 ^ 32) :
    (jobMatches (c.map toLowerCase) (j.map toLowerCase)).Sublist (c.map toLowerCase) ∧
      (jobMatches (c.map toLowerCase) (j.map toLowerCase)).length ≤ c.length ∧
      ∃ v : Int, calculateJobMatch toLowerCase c j = some v ∧
        v ≤ roundHalfUpPercent c.length j.length := by
  have hn : 0 < j.length := List.length_pos.mpr hj
  have hm : matchCount toLowerCase c j < 2 ^ 32 :=
    lt_of_le_of_lt (matchCount_le_length toLowerCase c j) hlen
  refine ⟨List.filter_sublist _, ?_, _, calculateJobMatch_of_ne_nil _ _ _ hc hj, ?_⟩
  · rw [jobMatches_length]
    exact matchCount_le_length toLowerCase c j
  · exact le_trans (percent_round_le _ _ hn hm)
      (roundHalfUpPercent_mono _ _ _ (matchCount_le_length toLowerCase c j))

/-- Witness for C6 at `c = ["React", "JavaScript"]`, `j = ["react", "java", "script"]`, where
the candidate skill `"JavaScript"` matches two job skills. -/
theorem calculateJobMatch_le_candidate_ratio_witness :
    (jobMatches (["React", "JavaScript"].map toLowerCaseAscii)
        (["react", "java", "script"].map toLowerCaseAscii)).Sublist
        (["React", "JavaScript"].map toLowerCaseAscii) ∧
      (jobMatches (["React", "JavaScript"].map toLowerCaseAscii)
        (["react", "java", "script"].map toLowerCaseAscii)).length
          ≤ ["React", "JavaScript"].length ∧
      ∃ v : Int, calculateJobMatch toLowerCaseAscii ["React", "JavaScript"]
          ["react", "java", "script"] = some v ∧
        v ≤ roundHalfUpPercent ["React", "JavaScript"].length
          ["react", "java", "script"].length :=
  calculateJobMatch_le_candidate_ratio toLowerCaseAscii ["React", "JavaScript"]
    ["react", "java", "script"] (by decide) (by decide) (by decide)

/-- C7: `calculateJobMatch` is total: for every pair of lists it returns a non-negative
integer; the non-finite result of a division by zero (`none`) never arises, the division by
`length j` being reached only when `j` is non-empty. -/
theorem calculateJobMatch_returns (toLowerCase : String → String) (c j : List String) :
    ∃ v : Int, calculateJobMatch toLowerCase c j = some v ∧ 0 ≤ v := by
  obtain ⟨v, hv, h0, _⟩ := calculateJobMatch_total toLowerCase c j
  exact ⟨v, hv, h0⟩

/-- C8: the match score is not symmetric: for `c = ["React", "Node.js"]` and
`j = ["React", "Python", "SQL"]` it is `33` (one match over three job skills), while with
the arguments swapped it is `50` (one match over two). -/
theorem calculateJobMatch_not_symmetric :
    calculateJobMatch toLowerCaseAscii ["React", "Node.js"] ["React", "Python", "SQL"]
        = some 33 ∧
      calculateJobMatch toLowerCaseAscii ["React", "Python", "SQL"] ["React", "Node.js"]
        = some 50 ∧
      calculateJobMatch toLowerCaseAscii ["React", "Node.js"] ["React", "Python", "SQL"]
        ≠ calculateJobMatch toLowerCaseAscii ["React", "Python", "SQL"] ["React", "Node.js"] :=
  ⟨by decide, by decide, by decide⟩

/-- C9: the match score ignores letter case: if `c'` and `j'` agree entry by entry with `c`
and `j` after lower-casing, the scores are equal; in particular, lower-casing being
idempotent, the score of the element-wise lower-cased lists is the score of the lists. -/
theorem calculateJobMatch_case_insensitive (toLowerCase : String → String)
    (c c' j j' : List String)
    (hc : List.Forall₂ (fun s s' => toLowerCase s = toLowerCase s') c c')
    (hj : List.Forall₂ (fun s s' => toLowerCase s = toLowerCase s') j j') :
    calculateJobMatch toLowerCase c' j' = calculateJobMatch toLowerCase c j ∧
      ((∀ s, toLowerCase (toLowerCase s) = toLowerCase s) →
        calculateJobMatch toLowerCase (c.map toLowerCase) (j.map toLowerCase)
          = calculateJobMatch toLowerCase c j) := by
  have key : ∀ {l l' : List String},
      List.Forall₂ (fun s s' => toLowerCase s = toLowerCase s') l l' →
      l.map toLowerCase = l'.map toLowerCase := by
    intro l l' h
    induction h with
    | nil => rfl
    | cons hab _ ih => simp [hab, ih]
  refine ⟨(calculateJobMatch_congr toLowerCase c c' j j' (key hc) (key hj)).symm, ?_⟩
  intro hidem
  apply calculateJobMatch_congr <;> simp [List.map_map, Function.comp_def, hidem]

/-- Witness for C9 at `c = ["React", "Node.js"]`, `j = ["React", "Python", "SQL"]` and the
re-cased lists `c' = ["REACT", "node.JS"]`, `j' = ["react", "PYTHON", "Sql"]`. -/
theorem calculateJobMatch_case_insensitive_witness :
    calculateJobMatch toLowerCaseAscii ["REACT", "node.JS"] ["react", "PYTHON", "Sql"]
        = calculateJobMatch toLowerCaseAscii ["React", "Node.js"] ["React", "Python", "SQL"] ∧
      calculateJobMatch toLowerCaseAscii (["React", "Node.js"].map toLowerCaseAscii)
          (["React", "Python", "SQL"].map toLowerCaseAscii)
        = calculateJobMatch toLowerCaseAscii ["React", "Node.js"] ["React", "Python", "SQL"] :=
  have h := calculateJobMatch_case_insensitive toLowerCaseAscii
    ["React", "Node.js"] ["REACT", "node.JS"] ["React", "Python", "SQL"]
    ["react", "PYTHON", "Sql"]
    (List.Forall₂.cons (by decide) (List.Forall₂.cons (by decide) List.Forall₂.nil))
    (List.Forall₂.cons (by decide) (List.Forall₂.cons (by decide)
      (List.Forall₂.cons (by decide) List.Forall₂.nil)))
  ⟨h.1, h.2 toLowerCaseAscii_idem⟩

/-- C10: for every text the list returned by `extractSkillsFromText` has no duplicates, and
no two of its entries are equal after lower-casing. -/
theorem extractSkillsFromText_nodup (toLowerCase : String → String) (text : String) :
    (extractSkillsFromText toLowerCase text).Nodup ∧
      ((extractSkillsFromText toLowerCase text).map toLowerCaseAscii).Nodup := by
  rw [extractSkillsFromText_eq]
  have h1 : (skillKeywords.map capitalizeFirst).Nodup := by decide
  have h2 : ((skillKeywords.map capitalizeFirst).map toLowerCaseAscii).Nodup := by decide
  have hsub : ((skillKeywords.filter (fun k => includes (toLowerCase text) k)).map
      capitalizeFirst).Sublist (skillKeywords.map capitalizeFirst) :=
    List.Sublist.map _ (List.filter_sublist _)
  exact ⟨hsub.nodup h1, (List.Sublist.map _ hsub).nodup h2⟩

/-! ## Auxiliary facts on lower-casing, scoring and ranking -/

theorem char_toLower_of_not_upper (ch : Char) (h : ¬ (65 ≤ ch.toNat ∧ ch.toNat ≤ 90)) :
    ch.toLower = ch := by
  simp only [Char.toLower, ge_iff_le, h, if_false]

theorem toLowerCaseAscii_append (s t : String) :
    toLowerCaseAscii (s ++ t) = toLowerCaseAscii s ++ toLowerCaseAscii t := by
  apply String.ext
  simp [toLowerCaseAscii, String.data_append]

theorem toLowerCaseAscii_of_no_upper (k : String)
    (hk : ∀ ch ∈ k.data, ¬ (65 ≤ ch.toNat ∧ ch.toNat ≤ 90) ∧ ch.toNat < 128) :
    toLowerCaseAscii k = k := by
  apply String.ext
  simp only [toLowerCaseAscii]
  conv_rhs => rw [← List.map_id k.data]
  apply List.map_congr_left
  intro ch hch
  exact char_toLower_of_not_upper ch (hk ch hch).1

theorem toLowerCaseAscii_stable (a k b : String)
    (hk : ∀ ch ∈ k.data, ¬ (65 ≤ ch.toNat ∧ ch.toNat ≤ 90) ∧ ch.toNat < 128) :
    ∃ a' b' : String, toLowerCaseAscii (a ++ k ++ b) = a' ++ k ++ b' :=
  ⟨toLowerCaseAscii a, toLowerCaseAscii b, by
    rw [toLowerCaseAscii_append, toLowerCaseAscii_append, toLowerCaseAscii_of_no_upper k hk]⟩

theorem skillKeywords_stable :
    ∀ k ∈ skillKeywords, ∀ ch ∈ k.data, ¬ (65 ≤ ch.toNat ∧ ch.toNat ≤ 90) ∧ ch.toNat < 128 := by
  decide

theorem mem_extractSkillsFromText (toLowerCase : String → String) (text k : String)
    (hk : k ∈ skillKeywords) (hin : k.data <:+: (toLowerCase text).data) :
    capitalizeFirst k ∈ extractSkillsFromText toLowerCase text := by
  rw [extractSkillsFromText_eq]
  apply List.mem_map_of_mem
  rw [List.mem_filter]
  exact ⟨hk, (includes_iff _ _).mpr hin⟩

theorem extractSkillsFromText_congr (toLowerCase : String → String) (t1 t2 : String)
    (h : toLowerCase t1 = toLowerCase t2) :
    extractSkillsFromText toLowerCase t1 = extractSkillsFromText toLowerCase t2 := by
  unfold extractSkillsFromText
  rw [h]

theorem scoreJobs_spec (toLowerCase : String → String) (userSkills : List String)
    (jobs : List Job) :
    ∃ rs, scoreJobs toLowerCase userSkills jobs = some rs ∧
      List.Forall₂ (fun job r => r.job = job ∧
        calculateJobMatch toLowerCase userSkills job.skills = some r.matchScore ∧
        r.reason = reasonText r.matchScore) jobs rs := by
  induction jobs with
  | nil => exact ⟨[], rfl, List.Forall₂.nil⟩
  | cons job rest ih =>
    obtain ⟨rs, hrs, hall⟩ := ih
    obtain ⟨v, hv, _⟩ := calculateJobMatch_total toLowerCase userSkills job.skills
    refine ⟨⟨job, v, reasonText v⟩ :: rs, ?_, List.Forall₂.cons ⟨rfl, hv, rfl⟩ hall⟩
    simp only [scoreJobs, recommendJob, hv, hrs, Option.map_some']

theorem forall₂_mem_right {α β : Type} {R : α → β → Prop} {l : List α} {m : List β}
    (h : List.Forall₂ R l m) : ∀ b ∈ m, ∃ a ∈ l, R a b := by
  induction h with
  | nil => intro b hb; cases hb
  | cons hab _ ih =>
    intro b hb
    rcases List.mem_cons.mp hb with rfl | hb
    · exact ⟨_, List.mem_cons_self _ _, hab⟩
    · obtain ⟨a, ha, hR⟩ := ih b hb
      exact ⟨a, List.mem_cons_of_mem _ ha, hR⟩

theorem forall₂_mem_left {α β : Type} {R : α → β → Prop} {l : List α} {m : List β}
    (h : List.Forall₂ R l m) : ∀ a ∈ l, ∃ b ∈ m, R a b := by
  induction h with
  | nil => intro a ha; cases ha
  | cons hab _ ih =>
    intro a ha
    rcases List.mem_cons.mp ha with rfl | ha
    · exact ⟨_, List.mem_cons_self _ _, hab⟩
    · obtain ⟨b, hb, hR⟩ := ih a ha
      exact ⟨b, List.mem_cons_of_mem _ hb, hR⟩

theorem sorted_insertionSort_score (l : List Recommendation) :
    (l.insertionSort (fun a b => b.matchScore ≤ a.matchScore)).Pairwise
      (fun a b => b.matchScore ≤ a.matchScore) := by
  haveI : IsTotal Recommendation (fun a b => b.matchScore ≤ a.matchScore) :=
    ⟨fun a b => le_total b.matchScore a.matchScore⟩
  haveI : IsTrans Recommendation (fun a b => b.matchScore ≤ a.matchScore) :=
    ⟨fun _ _ _ hab hbc => le_trans hbc hab⟩
  exact List.sorted_insertionSort _ l

theorem mem_rankRecommendations (scored : List Recommendation) (r : Recommendation)
    (h : r ∈ rankRecommendations scored) : r ∈ scored ∧ 30 < r.matchScore := by
  unfold rankRecommendations at h
  have h1 := List.mem_of_mem_take h
  rw [(List.perm_insertionSort _ _).mem_iff, List.mem_filter] at h1
  exact ⟨h1.1, by simpa using h1.2⟩

theorem rankRecommendations_pairwise (scored : List Recommendation) :
    (rankRecommendations scored).Pairwise (fun a b => b.matchScore ≤ a.matchScore) :=
  (sorted_insertionSort_score _).sublist (List.take_sublist _ _)

theorem rankRecommendations_length (scored : List Recommendation) :
    (rankRecommendations scored).length ≤ 5 := by
  unfold rankRecommendations
  rw [List.length_take]
  exact min_le_left _ _

theorem rankRecommendations_top (scored : List Recommendation) (x : Recommendation)
    (hx : x ∈ scored) (h30 : 30 < x.matchScore) (hnot : x ∉ rankRecommendations scored) :
    ∀ r ∈ rankRecommendations scored, x.matchScore ≤ r.matchScore := by
  intro r hr
  unfold rankRecommendations at hnot hr
  generalize hL : (scored.filter (fun r => decide (30 < r.matchScore))).insertionSort
    (fun a b => b.matchScore ≤ a.matchScore) = L at hnot hr
  have hxL : x ∈ L := by
    rw [← hL, (List.perm_insertionSort _ _).mem_iff, List.mem_filter]
    exact ⟨hx, by simpa using h30⟩
  have hsorted : L.Pairwise (fun a b => b.matchScore ≤ a.matchScore) := by
    rw [← hL]
    exact sorted_insertionSort_score _
  rw [← List.take_append_drop 5 L] at hxL hsorted
  rcases List.mem_append.mp hxL with h | h
  · exact absurd h hnot
  · exact (List.pairwise_append.mp hsorted).2.2 r hr x h

theorem rankRecommendations_all (scored : List Recommendation)
    (hlen : (rankRecommendations scored).length < 5) (x : Recommendation)
    (hx : x ∈ scored) (h30 : 30 < x.matchScore) : x ∈ rankRecommendations scored := by
  unfold rankRecommendations at hlen ⊢
  generalize hL : (scored.filter (fun r => decide (30 < r.matchScore))).insertionSort
    (fun a b => b.matchScore ≤ a.matchScore) = L at hlen ⊢
  have hxL : x ∈ L := by
    rw [← hL, (List.perm_insertionSort _ _).mem_iff, List.mem_filter]
    exact ⟨hx, by simpa using h30⟩
  have hle : L.length ≤ 5 := by
    rw [List.length_take] at hlen
    omega
  rwa [List.take_of_length_le hle]

theorem recommendations_spec (toLowerCase : String → String) (userSkills : List String)
    (jobs : List Job) :
    ∃ rs, recommendations toLowerCase userSkills jobs = some (rankRecommendations rs) ∧
      List.Forall₂ (fun job r => r.job = job ∧
        calculateJobMatch toLowerCase userSkills job.skills = some r.matchScore ∧
        r.reason = reasonText r.matchScore) jobs rs := by
  obtain ⟨rs, hrs, hall⟩ := scoreJobs_spec toLowerCase userSkills jobs
  exact ⟨rs, by simp only [recommendations, hrs, Option.map_some'], hall⟩

/-! ## Properties of extraction, of the recommendation pipeline and of the handlers -/

/-- C11: extraction does no word-boundary checking.  If lower-casing leaves in place every
run of ASCII characters other than `A`-`Z` (as `toLowerCase` does), then for every vocabulary
keyword `k` and all strings `a`, `b` the result for `a ++ k ++ b` contains the capitalised
form of `k`; in particular every text that contains `golang` yields `Go`. -/
theorem extractSkillsFromText_no_word_boundary (toLowerCase : String → String)
    (hstable : ∀ a k b : String,
      (∀ ch ∈ k.data, ¬ (65 ≤ ch.toNat ∧ ch.toNat ≤ 90) ∧ ch.toNat < 128) →
      ∃ a' b' : String, toLowerCase (a ++ k ++ b) = a' ++ k ++ b') :
    (∀ k ∈ skillKeywords, ∀ a b : String,
        capitalizeFirst k ∈ extractSkillsFromText toLowerCase (a ++ k ++ b)) ∧
      (∀ a b : String, "Go" ∈ extractSkillsFromText toLowerCase (a ++ "golang" ++ b)) := by
  have main : ∀ k ∈ skillKeywords, ∀ a b : String,
      capitalizeFirst k ∈ extractSkillsFromText toLowerCase (a ++ k ++ b) := by
    intro k hk a b
    obtain ⟨a', b', h⟩ := hstable a k b (skillKeywords_stable k hk)
    apply mem_extractSkillsFromText _ _ _ hk
    rw [h]
    simp only [String.data_append]
    exact ⟨a'.data, b'.data, rfl⟩
  refine ⟨main, fun a b => ?_⟩
  have e : a ++ "golang" ++ b = a ++ "go" ++ ("lang" ++ b) := by
    have : ("golang" : String) = "go" ++ "lang" := by decide
    rw [this, String.append_assoc, String.append_assoc, String.append_assoc]
  rw [e]
  exact main "go" (by decide) a ("lang" ++ b)

/-- Witness for C11 with the Basic Latin lower-casing: `react` inside `Prereactive` and
`go` inside `golang`. -/
theorem extractSkillsFromText_no_word_boundary_witness :
    capitalizeFirst "react" ∈
        extractSkillsFromText toLowerCaseAscii ("Pre" ++ "react" ++ "ive") ∧
      "Go" ∈ extractSkillsFromText toLowerCaseAscii ("I write " ++ "golang" ++ " daily") :=
  have h := extractSkillsFromText_no_word_boundary toLowerCaseAscii toLowerCaseAscii_stable
  ⟨h.1 "react" (by decide) "Pre" "ive", h.2 "I write " " daily"⟩

/-- C12: extraction is case-insensitive in its input: two texts with the same lower-cased
form give the same result; in particular, lower-casing being idempotent, a text and its
lower-cased form give the same result. -/
theorem extractSkillsFromText_case_insensitive (toLowerCase : String → String)
    (t1 t2 : String) (h : toLowerCase t1 = toLowerCase t2) :
    extractSkillsFromText toLowerCase t1 = extractSkillsFromText toLowerCase t2 ∧
      ((∀ s, toLowerCase (toLowerCase s) = toLowerCase s) →
        extractSkillsFromText toLowerCase (toLowerCase t1)
          = extractSkillsFromText toLowerCase t1) :=
  ⟨extractSkillsFromText_congr toLowerCase t1 t2 h,
    fun hidem => extractSkillsFromText_congr toLowerCase _ _ (hidem t1)⟩

/-- Witness for C12 at `I know Python and React` and a re-cased variant. -/
theorem extractSkillsFromText_case_insensitive_witness :
    extractSkillsFromText toLowerCaseAscii "I know Python and React"
        = extractSkillsFromText toLowerCaseAscii "i KNOW pYTHON AND react" ∧
      extractSkillsFromText toLowerCaseAscii (toLowerCaseAscii "I know Python and React")
        = extractSkillsFromText toLowerCaseAscii "I know Python and React" :=
  have h := extractSkillsFromText_case_insensitive toLowerCaseAscii
    "I know Python and React" "i KNOW pYTHON AND react" (by decide)
  ⟨h.1, h.2 toLowerCaseAscii_idem⟩

/-- C13: `extractSkillsFromText` applied to the empty string (whose lower-cased form is the
empty string) returns the empty list. -/
theorem extractSkillsFromText_empty (toLowerCase : String → String)
    (h : toLowerCase "" = "") : extractSkillsFromText toLowerCase "" = [] := by
  rw [extractSkillsFromText_eq, h]
  decide

/-- Witness for C13 with the Basic Latin lower-casing. -/
theorem extractSkillsFromText_empty_witness :
    extractSkillsFromText toLowerCaseAscii "" = [] :=
  extractSkillsFromText_empty toLowerCaseAscii (by decide)

/-- C14: every recommendation returned by the recommendation pipeline has a `matchScore`
strictly greater than 30, and a job whose score is 30 or less is the job of no returned
recommendation. -/
theorem recommendations_above_threshold (toLowerCase : String → String)
    (userSkills : List String) (jobs : List Job) :
    ∃ recs, recommendations toLowerCase userSkills jobs = some recs ∧
      (∀ r ∈ recs, 30 < r.matchScore) ∧
      (∀ job ∈ jobs, ∀ s : Int,
        calculateJobMatch toLowerCase userSkills job.skills = some s → s ≤ 30 →
        ∀ r ∈ recs, r.job ≠ job) := by
  obtain ⟨rs, hrecs, hall⟩ := recommendations_spec toLowerCase userSkills jobs
  refine ⟨_, hrecs, fun r hr => (mem_rankRecommendations rs r hr).2, ?_⟩
  intro job _ s hs hle r hr hjob
  obtain ⟨hmem, h30⟩ := mem_rankRecommendations rs r hr
  obtain ⟨job', _, hj', hscore, _⟩ := forall₂_mem_right hall r hmem
  rw [← hj', hjob, hs] at hscore
  have : s = r.matchScore := Option.some.inj hscore
  omega

/-- C15: the returned recommendations are ordered by `matchScore` in non-increasing order:
each recommendation's score is at least the score of every later one, in particular of the
one right after it. -/
theorem recommendations_sorted (toLowerCase : String → String)
    (userSkills : List String) (jobs : List Job) :
    ∃ recs, recommendations toLowerCase userSkills jobs = some recs ∧
      recs.Pairwise (fun a b => b.matchScore ≤ a.matchScore) ∧
      recs.Chain' (fun a b => b.matchScore ≤ a.matchScore) := by
  obtain ⟨rs, hrecs, _⟩ := recommendations_spec toLowerCase userSkills jobs
  exact ⟨_, hrecs, rankRecommendations_pairwise rs,
    (rankRecommendations_pairwise rs).chain'⟩

/-- C16: the recommendation pipeline returns at most 5 recommendations, the top-scoring
ones: a job with score above 30 that is the job of no returned recommendation has a score no
greater than every returned score, and if fewer than 5 recommendations are returned then
every job with score above 30 is the job of a returned recommendation. -/
theorem recommendations_top_five (toLowerCase : String → String)
    (userSkills : List String) (jobs : List Job) :
    ∃ recs, recommendations toLowerCase userSkills jobs = some recs ∧
      recs.length ≤ 5 ∧
      (∀ job ∈ jobs, ∀ s : Int,
        calculateJobMatch toLowerCase userSkills job.skills = some s → 30 < s →
        (∀ r ∈ recs, r.job ≠ job) → ∀ r ∈ recs, s ≤ r.matchScore) ∧
      (recs.length < 5 → ∀ job ∈ jobs, ∀ s : Int,
        calculateJobMatch toLowerCase userSkills job.skills = some s → 30 < s →
        ∃ r ∈ recs, r.job = job) := by
  obtain ⟨rs, hrecs, hall⟩ := recommendations_spec toLowerCase userSkills jobs
  have hx : ∀ job ∈ jobs, ∀ s : Int,
      calculateJobMatch toLowerCase userSkills job.skills = some s →
      ∃ x ∈ rs, x.job = job ∧ x.matchScore = s := by
    intro job hjob s hs
    obtain ⟨x, hxmem, hxj, hscore, _⟩ := forall₂_mem_left hall job hjob
    rw [hs] at hscore
    exact ⟨x, hxmem, hxj, (Option.some.inj hscore).symm⟩
  refine ⟨_, hrecs, rankRecommendations_length rs, ?_, ?_⟩
  · intro job hjob s hs h30 hnot r hr
    obtain ⟨x, hxmem, hxj, hxs⟩ := hx job hjob s hs
    have hxnot : x ∉ rankRecommendations rs := fun h => hnot x h hxj
    have := rankRecommendations_top rs x hxmem (by omega) hxnot r hr
    omega
  · intro hlen job hjob s hs h30
    obtain ⟨x, hxmem, hxj, hxs⟩ := hx job hjob s hs
    exact ⟨x, rankRecommendations_all rs hlen x hxmem (by omega), hxj⟩

/-- C17: if the user record does not exist, or the user has no stored skills, the
recommendations handler answers with an empty `recommendations` list and scores no job. -/
theorem getRecommendations_no_skills (toLowerCase : String → String) (user : Option User)
    (jobs : List Job) (h : user = none ∨ ∃ u, user = some u ∧ u.skills = []) :
    getRecommendations toLowerCase user jobs = some ⟨200, [], []⟩ := by
  rcases h with h | ⟨u, h, hu⟩
  · subst h
    rfl
  · subst h
    simp [getRecommendations, hu]

/-- Witness for C17: an absent user record and a user without skills, with one job in the
collection. -/
theorem getRecommendations_no_skills_witness :
    getRecommendations toLowerCaseAscii none [exampleJob "frontend" ["react"]]
        = some ⟨200, [], []⟩ ∧
      getRecommendations toLowerCaseAscii (some ⟨[]⟩) [exampleJob "frontend" ["react"]]
        = some ⟨200, [], []⟩ :=
  ⟨getRecommendations_no_skills toLowerCaseAscii none _ (Or.inl rfl),
    getRecommendations_no_skills toLowerCaseAscii (some ⟨[]⟩) _ (Or.inr ⟨⟨[]⟩, rfl, rfl⟩)⟩

/-- C18: for a request body without a `text` field the skill-extraction handler responds
with status 400 and the message `Text is required`, and the response has no `skills`. -/
theorem extractSkillsHandler_text_absent (toLowerCase : String → String) :
    extractSkillsHandler toLowerCase none = ⟨400, "Text is required", none⟩ ∧
      (extractSkillsHandler toLowerCase none).status = 400 ∧
      (extractSkillsHandler toLowerCase none).message = "Text is required" ∧
      (extractSkillsHandler toLowerCase none).skills = none :=
  ⟨rfl, rfl, rfl, rfl⟩

/-- C19 fails on the code: the handler of `POST /api/jobs` reads nothing about a payment.
Whenever Mongoose accepts the document built from the seven fields of the body and the
user's id, the job is stored and the answer is 201, and the outcome is the same whatever
else the body holds: no payment is asked for, looked up or recorded. -/
theorem postJob_without_payment (save : JobInput → Option Job) (populate : Job → Option Job)
    (userId : String) (body : JobBody) (jobs : List Job) (job populated : Job)
    (hsave : save (jobInput userId body) = some job)
    (hpopulate : populate job = some populated) :
    postJob save populate userId body jobs
        = (⟨201, "Job posted successfully", some populated⟩, jobs ++ [job]) ∧
      ∀ others : List (String × JsValue),
        postJob save populate userId
            ⟨body.title, body.description, body.budget, body.location, body.skills,
              body.jobType, body.experienceLevel, others⟩ jobs
          = postJob save populate userId body jobs := by
  refine ⟨?_, fun others => rfl⟩
  simp only [postJob, hsave, hpopulate]

/-- The failing input of C19: a registered user (the id is a 24-digit hexadecimal ObjectId,
as issued at login) posts a valid job, the body says nothing about a payment, and the
collection is empty; `save` accepts the document as Mongoose does, with the defaults of
`jobSchema`.  The job is stored and the answer is 201. -/
theorem postJob_without_payment_witness :
    postJob
        (fun input =>
          if input.postedBy = "507f1f77bcf86cd799439011" then
            some ⟨"Backend developer", "Build the API", 500, none, ["node.js"], "full-time",
              "intermediate", input.postedBy, "active", none⟩
          else none)
        (fun job => some job) "507f1f77bcf86cd799439011"
        ⟨some (JsValue.string "Backend developer"), some (JsValue.string "Build the API"),
          some (JsValue.number 500), none,
          some (JsValue.array [JsValue.string "node.js"]), none, none, []⟩ []
      = (⟨201, "Job posted successfully",
            some ⟨"Backend developer", "Build the API", 500, none, ["node.js"], "full-time",
              "intermediate", "507f1f77bcf86cd799439011", "active", none⟩⟩,
          [⟨"Backend developer", "Build the API", 500, none, ["node.js"], "full-time",
              "intermediate", "507f1f77bcf86cd799439011", "active", none⟩]) :=
  (postJob_without_payment _ _ "507f1f77bcf86cd799439011"
    ⟨some (JsValue.string "Backend developer"), some (JsValue.string "Build the API"),
      some (JsValue.number 500), none,
      some (JsValue.array [JsValue.string "node.js"]), none, none, []⟩ [] _ _ rfl rfl).1

/-- C20: every recommendation belongs to a job of the list, carries as `matchScore` the
score `calculateJobMatch` computes from the user's skills and that job's skills, and its
`reason` is `Matches `, the decimal `matchScore`, then `% of your skills`. -/
theorem recommendations_score_and_reason (toLowerCase : String → String)
    (userSkills : List String) (jobs : List Job) :
    ∃ recs, recommendations toLowerCase userSkills jobs = some recs ∧
      ∀ r ∈ recs, r.job ∈ jobs ∧
        calculateJobMatch toLowerCase userSkills r.job.skills = some r.matchScore ∧
        r.reason = "Matches " ++ toString r.matchScore ++ "% of your skills" := by
  obtain ⟨rs, hrecs, hall⟩ := recommendations_spec toLowerCase userSkills jobs
  refine ⟨_, hrecs, fun r hr => ?_⟩
  obtain ⟨job, hjob, hj, hscore, hreason⟩ :=
    forall₂_mem_right hall r (mem_rankRecommendations rs r hr).1
  subst hj
  exact ⟨hjob, hscore, hreason⟩

/-! ## Number primitives: exactness and monotonicity of binary64 rounding -/

theorem roundNearestEven_tie_even (a b : Nat) (hb : 0 < b) :
    (2 * (roundNearestEven a b * b) = 2 * a + b → roundNearestEven a b % 2 = 0) ∧
      (2 * a = 2 * (roundNearestEven a b * b) + b → roundNearestEven a b % 2 = 0) := by
  have hdm : b * (a / b) + a % b = a := Nat.div_add_mod a b
  have hr : a % b < b := Nat.mod_lt a hb
  have hq : a / b * b = b * (a / b) := Nat.mul_comm _ _
  unfold roundNearestEven
  simp only
  split_ifs <;> (try simp only [Nat.add_mul, Nat.one_mul]) <;> constructor <;> intro h <;> omega

theorem toDouble_repr (a b : Nat) (ha : a ≠ 0) (hb : 0 < b) :
    ∃ d u M : Nat, toDouble a b = ⟨M * 2 ^ d, 2 ^ u⟩ ∧
      b * 2 ^ d * 2 ^ 52 ≤ a * 2 ^ u ∧ a * 2 ^ u < b * 2 ^ d * 2 ^ 53 ∧
      2 * (M * (b * 2 ^ d)) ≤ 2 * (a * 2 ^ u) + b * 2 ^ d ∧
      2 * (a * 2 ^ u) ≤ 2 * (M * (b * 2 ^ d)) + b * 2 ^ d ∧
      (2 * (M * (b * 2 ^ d)) = 2 * (a * 2 ^ u) + b * 2 ^ d → M % 2 = 0) ∧
      (2 * (a * 2 ^ u) = 2 * (M * (b * 2 ^ d)) + b * 2 ^ d → M % 2 = 0) := by
  have hB : ∀ d : Nat, 0 < b * 2 ^ d := fun d => by positivity
  refine ⟨_, bitLength b + 53, _, by simp only [toDouble, if_neg ha],
    toDouble_scaled_ge a b ha, toDouble_scaled_lt a b hb,
    (roundNearestEven_bounds _ _ (hB _)).1, (roundNearestEven_bounds _ _ (hB _)).2,
    (roundNearestEven_tie_even _ _ (hB _)).1, (roundNearestEven_tie_even _ _ (hB _)).2⟩


theorem toDouble_zero (b : Nat) : toDouble 0 b = ⟨0, 1⟩ := by
  simp [toDouble]

theorem toDouble_exact (c b : Nat) (hb : 0 < b) (hc : c < 2 ^ 53) :
    (toDouble (c * b) b).toRat = c := by
  by_cases hc0 : c = 0
  · subst hc0
    simp [toDouble_zero, Double.toRat]
  have ha : c * b ≠ 0 := Nat.mul_ne_zero hc0 hb.ne'
  obtain ⟨d, u, M, hrepr, h52, _, hup, hlo, _, _⟩ := toDouble_repr (c * b) b ha hb
  have hdu : d ≤ u := by
    have h1 : b * 2 ^ d * 2 ^ 52 < b * 2 ^ (u + 1) * 2 ^ 52 := by
      calc b * 2 ^ d * 2 ^ 52 ≤ c * b * 2 ^ u := h52
        _ < 2 ^ 53 * b * 2 ^ u := by gcongr
        _ = b * 2 ^ (u + 1) * 2 ^ 52 := by ring
    have h2 : b * 2 ^ d < b * 2 ^ (u + 1) := lt_of_mul_lt_mul_right h1 (Nat.zero_le _)
    have h3 : 2 ^ d < 2 ^ (u + 1) := lt_of_mul_lt_mul_left h2 (Nat.zero_le _)
    have h4 : d < u + 1 := (Nat.pow_lt_pow_iff_right (by norm_num)).mp h3
    omega
  obtain ⟨e, rfl⟩ := Nat.exists_eq_add_of_le hdu
  have hB : 0 < b * 2 ^ d := by positivity
  have hA : c * b * 2 ^ (d + e) = c * 2 ^ e * (b * 2 ^ d) := by ring
  rw [hA] at hup hlo
  have hM : M = c * 2 ^ e := by
    apply le_antisymm
    · by_contra hlt
      have h1 : (c * 2 ^ e + 1) * (b * 2 ^ d) ≤ M * (b * 2 ^ d) :=
        Nat.mul_le_mul_right _ (by omega)
      rw [Nat.add_mul, Nat.one_mul] at h1
      omega
    · by_contra hlt
      have h1 : (M + 1) * (b * 2 ^ d) ≤ c * 2 ^ e * (b * 2 ^ d) :=
        Nat.mul_le_mul_right _ (by omega)
      rw [Nat.add_mul, Nat.one_mul] at h1
      omega
  rw [hrepr, hM]
  simp only [Double.toRat]
  push_cast
  field_simp
  ring

theorem toDouble_toRat_nonneg (a b : Nat) : 0 ≤ (toDouble a b).toRat := by
  unfold Double.toRat
  positivity

theorem toDouble_repr_rat (a b : Nat) (ha : a ≠ 0) (hb : 0 < b) :
    ∃ (S : ℚ) (M : Nat) (k : Int), S = (2 : ℚ) ^ k ∧ (toDouble a b).toRat = M * S ∧
      2 ^ 52 * S ≤ (a : ℚ) / b ∧ (a : ℚ) / b < 2 ^ 53 * S ∧
      2 * M * S ≤ 2 * ((a : ℚ) / b) + S ∧ 2 * ((a : ℚ) / b) ≤ 2 * M * S + S ∧
      (2 * M * S = 2 * ((a : ℚ) / b) + S → M % 2 = 0) ∧
      (2 * ((a : ℚ) / b) = 2 * M * S + S → M % 2 = 0) := by
  obtain ⟨d, u, M, hrepr, h52, h53, hup, hlo, hupeven, hloeven⟩ := toDouble_repr a b ha hb
  have hbq : (0 : ℚ) < b := by exact_mod_cast hb
  have hD : (0 : ℚ) < b * 2 ^ u := by positivity
  have hA : ((a * 2 ^ u : ℕ) : ℚ) = (a : ℚ) / b * (b * 2 ^ u) := by
    push_cast
    field_simp
    ring
  have hBd : ((b * 2 ^ d : ℕ) : ℚ) = (2 : ℚ) ^ d / 2 ^ u * (b * 2 ^ u) := by
    push_cast
    field_simp
    ring
  have hval : (toDouble a b).toRat = M * ((2 : ℚ) ^ d / 2 ^ u) := by
    rw [hrepr]
    simp only [Double.toRat]
    push_cast
    ring
  have hSpos : (0 : ℚ) < (2 : ℚ) ^ d / 2 ^ u := by positivity
  have hSk : (2 : ℚ) ^ d / 2 ^ u = (2 : ℚ) ^ ((d : ℤ) - (u : ℤ)) := by
    rw [zpow_sub₀ (by norm_num), zpow_natCast, zpow_natCast]
  have q52 : ((b * 2 ^ d : ℕ) : ℚ) * 2 ^ 52 ≤ ((a * 2 ^ u : ℕ) : ℚ) := by exact_mod_cast h52
  have q53 : ((a * 2 ^ u : ℕ) : ℚ) < ((b * 2 ^ d : ℕ) : ℚ) * 2 ^ 53 := by exact_mod_cast h53
  have qup : (2 : ℚ) * (M * ((b * 2 ^ d : ℕ) : ℚ)) ≤ 2 * ((a * 2 ^ u : ℕ) : ℚ)
      + ((b * 2 ^ d : ℕ) : ℚ) := by exact_mod_cast hup
  have qlo : (2 : ℚ) * ((a * 2 ^ u : ℕ) : ℚ) ≤ 2 * (M * ((b * 2 ^ d : ℕ) : ℚ))
      + ((b * 2 ^ d : ℕ) : ℚ) := by exact_mod_cast hlo
  have qupeven : (2 : ℚ) * (M * ((b * 2 ^ d : ℕ) : ℚ)) = 2 * ((a * 2 ^ u : ℕ) : ℚ)
      + ((b * 2 ^ d : ℕ) : ℚ) → M % 2 = 0 := fun h => hupeven (by exact_mod_cast h)
  have qloeven : (2 : ℚ) * ((a * 2 ^ u : ℕ) : ℚ) = 2 * (M * ((b * 2 ^ d : ℕ) : ℚ))
      + ((b * 2 ^ d : ℕ) : ℚ) → M % 2 = 0 := fun h => hloeven (by exact_mod_cast h)
  rw [hA, hBd] at q52 q53 qup qlo qupeven qloeven
  generalize (a : ℚ) / b = X at *
  generalize (2 : ℚ) ^ d / 2 ^ u = S at *
  generalize (b : ℚ) * 2 ^ u = D at *
  refine ⟨S, M, (d : ℤ) - (u : ℤ), hSk, hval, ?_, ?_, ?_, ?_, ?_, ?_⟩
  · exact le_of_mul_le_mul_right (by linarith) hD
  · exact lt_of_mul_lt_mul_right (by linarith) hD.le
  · exact le_of_mul_le_mul_right (by linarith) hD
  · exact le_of_mul_le_mul_right (by linarith) hD
  · intro h
    apply qupeven
    rw [show (2 : ℚ) * (↑M * (S * D)) = 2 * ↑M * S * D by ring, h]
    ring
  · intro h
    apply qloeven
    rw [show (2 : ℚ) * (X * D) = 2 * X * D by ring, h]
    ring

theorem toDouble_mantissa_bounds (S X : ℚ) (M : Nat) (hS : 0 < S)
    (h52 : 2 ^ 52 * S ≤ X) (h53 : X < 2 ^ 53 * S)
    (hup : 2 * M * S ≤ 2 * X + S) (hlo : 2 * X ≤ 2 * M * S + S) :
    (2 : ℚ) ^ 52 ≤ M ∧ (M : ℚ) ≤ 2 ^ 53 := by
  have h1 : (2 : ℚ) ^ 53 < 2 * M + 1 + 1 := by
    by_contra hcon
    push_neg at hcon
    have : (2 * (M : ℚ) + 1 + 1) * S ≤ 2 ^ 53 * S := mul_le_mul_of_nonneg_right hcon hS.le
    norm_num at this h52
    linarith
  have h2 : 2 * (M : ℚ) < 2 ^ 54 + 1 := by
    by_contra hcon
    push_neg at hcon
    have : (2 ^ 54 + 1) * S ≤ 2 * (M : ℚ) * S := mul_le_mul_of_nonneg_right hcon hS.le
    norm_num at this h53
    linarith
  have h1n : 2 ^ 53 < 2 * M + 1 + 1 := by exact_mod_cast h1
  have h2n : 2 * M < 2 ^ 54 + 1 := by exact_mod_cast h2
  have h3 : 2 ^ 52 ≤ M := by omega
  have h4 : M ≤ 2 ^ 53 := by omega
  exact ⟨by exact_mod_cast h3, by exact_mod_cast h4⟩

theorem toDouble_mono (a b a' b' : Nat) (hb : 0 < b) (hb' : 0 < b')
    (h : a * b' ≤ a' * b) : (toDouble a b).toRat ≤ (toDouble a' b').toRat := by
  by_cases ha : a = 0
  · subst ha
    rw [toDouble_zero]
    simpa [Double.toRat] using toDouble_toRat_nonneg a' b'
  have ha' : a' ≠ 0 := by
    rintro rfl
    have : a * b' = 0 := by omega
    rcases Nat.mul_eq_zero.mp this with h0 | h0
    · exact ha h0
    · omega
  have hbq : (0 : ℚ) < b := by exact_mod_cast hb
  have hbq' : (0 : ℚ) < b' := by exact_mod_cast hb'
  have hxx : (a : ℚ) / b ≤ (a' : ℚ) / b' := by
    rw [div_le_div_iff₀ hbq hbq']
    exact_mod_cast h
  obtain ⟨S, M, k, hSk, hval, h52, h53, hup, hlo, hupeven, _⟩ := toDouble_repr_rat a b ha hb
  obtain ⟨S', M', k', hSk', hval', h52', h53', hup', hlo', _, hloeven'⟩ :=
    toDouble_repr_rat a' b' ha' hb'
  have hSpos : 0 < S := by rw [hSk]; positivity
  have hSpos' : 0 < S' := by rw [hSk']; positivity
  obtain ⟨hM52, hM53⟩ := toDouble_mantissa_bounds S _ M hSpos h52 h53 hup hlo
  obtain ⟨hM52', hM53'⟩ := toDouble_mantissa_bounds S' _ M' hSpos' h52' h53' hup' hlo'
  rw [hval, hval']
  generalize (a : ℚ) / b = X at *
  generalize (a' : ℚ) / b' = X' at *
  have hstep : ∀ i j : ℤ, i < j → (2 : ℚ) ^ i * 2 ≤ 2 ^ j := by
    intro i j hij
    rw [← zpow_add_one₀ (by norm_num)]
    exact zpow_le_zpow_right₀ (by norm_num) (by omega)
  have h5352 : (2 : ℚ) ^ 53 = 2 ^ 52 * 2 := by norm_num
  rcases lt_trichotomy k k' with hk | hk | hk
  · have h2 : S * 2 ≤ S' := by rw [hSk, hSk']; exact hstep k k' hk
    calc (M : ℚ) * S ≤ 2 ^ 53 * S := mul_le_mul_of_nonneg_right hM53 hSpos.le
      _ = 2 ^ 52 * (S * 2) := by rw [h5352]; ring
      _ ≤ 2 ^ 52 * S' := by gcongr
      _ ≤ M' * S' := mul_le_mul_of_nonneg_right hM52' hSpos'.le
  · have hSS : S = S' := by rw [hSk, hSk', hk]
    subst hSS
    apply mul_le_mul_of_nonneg_right _ hSpos.le
    by_contra hcon
    push_neg at hcon
    have hconn : M' + 1 ≤ M := by exact_mod_cast hcon
    have hconq : (M' : ℚ) + 1 ≤ M := by exact_mod_cast hconn
    have hle : (M : ℚ) ≤ M' + 1 := by
      by_contra hgt
      push_neg at hgt
      have : 0 < ((M : ℚ) - (M' + 1)) * S := mul_pos (by linarith) hSpos
      linarith
    have heq : (M : ℚ) = M' + 1 := le_antisymm hle hconq
    have heqn : M = M' + 1 := by exact_mod_cast heq
    have e1 : 2 * (M : ℚ) * S = 2 * X + S := by
      apply le_antisymm hup
      rw [heq]
      linarith
    have e2 : 2 * X' = 2 * (M' : ℚ) * S + S := by
      apply le_antisymm hlo'
      rw [heq] at hup
      linarith
    have p1 := hupeven e1
    have p2 := hloeven' e2
    omega
  · exfalso
    have h2 : S' * 2 ≤ S := by rw [hSk, hSk']; exact hstep k' k hk
    have : X' < X := by
      calc X' < 2 ^ 53 * S' := h53'
        _ = 2 ^ 52 * (S' * 2) := by rw [h5352]; ring
        _ ≤ 2 ^ 52 * S := by gcongr
        _ ≤ X := h52
    linarith


theorem percent_round_mono (m m' n : Nat) (hn : 0 < n) (h : m ≤ m') :
    mathRound (fmul (toDouble m n) (Double.ofNat 100))
      ≤ mathRound (fmul (toDouble m' n) (Double.ofNat 100)) := by
  rw [mathRound_eq_floor _ (percent_den_pos m n), mathRound_eq_floor _ (percent_den_pos m' n)]
  apply Int.floor_mono
  apply add_le_add_right
  have h1 : (toDouble m n).toRat ≤ (toDouble m' n).toRat :=
    toDouble_mono m n m' n hn hn (Nat.mul_le_mul_right n h)
  have hd := toDouble_den_pos m n
  have hd' := toDouble_den_pos m' n
  unfold fmul Double.ofNat
  simp only
  apply toDouble_mono _ _ _ _ (by omega) (by omega)
  have hdq : (0 : ℚ) < (toDouble m n).den := by exact_mod_cast hd
  have hdq' : (0 : ℚ) < (toDouble m' n).den := by exact_mod_cast hd'
  unfold Double.toRat at h1
  rw [div_le_div_iff₀ hdq hdq'] at h1
  have h2 : (toDouble m n).num * (toDouble m' n).den
      ≤ (toDouble m' n).num * (toDouble m n).den := by exact_mod_cast h1
  calc (toDouble m n).num * 100 * ((toDouble m' n).den * 1)
      = 100 * ((toDouble m n).num * (toDouble m' n).den) := by ring
    _ ≤ 100 * ((toDouble m' n).num * (toDouble m n).den) := by gcongr
    _ = (toDouble m' n).num * 100 * ((toDouble m n).den * 1) := by ring

theorem percent_round_self (n : Nat) (hn : 0 < n) :
    mathRound (fmul (toDouble n n) (Double.ofNat 100)) = 100 := by
  rw [mathRound_eq_floor _ (percent_den_pos n n)]
  have h1 : (toDouble n n).toRat = 1 := by
    have := toDouble_exact 1 n hn (by norm_num)
    rw [Nat.one_mul] at this
    simpa using this
  have hd := toDouble_den_pos n n
  have hnum : (toDouble n n).num = (toDouble n n).den := by
    unfold Double.toRat at h1
    have hdq : ((toDouble n n).den : ℚ) ≠ 0 := by exact_mod_cast hd.ne'
    rw [div_eq_one_iff_eq hdq] at h1
    exact_mod_cast h1
  have h2 : (fmul (toDouble n n) (Double.ofNat 100)).toRat = 100 := by
    unfold fmul Double.ofNat
    simp only
    rw [hnum, Nat.mul_comm ((toDouble n n).den) 100]
    have := toDouble_exact 100 ((toDouble n n).den * 1) (by omega) (by norm_num)
    rw [Nat.mul_one] at this ⊢
    simpa using this
  rw [h2, Int.floor_eq_iff]
  norm_num

theorem matchCount_self (toLowerCase : String → String) (s : List String) :
    matchCount toLowerCase s s = s.length := by
  unfold matchCount
  rw [List.countP_eq_length]
  intro x hx
  simp only [decide_eq_true_eq]
  exact ⟨x, hx, Or.inl (List.infix_refl _)⟩

theorem matchCount_append_singleton (toLowerCase : String → String) (c j : List String)
    (x : String) :
    matchCount toLowerCase c j ≤ matchCount toLowerCase (c ++ [x]) j := by
  unfold matchCount
  rw [List.countP_append]
  exact Nat.le_add_right _ _

/-! ## Auxiliary facts on extraction, the middleware and the job form -/

theorem mem_extractSkillsFromText_iff (toLowerCase : String → String) (text out : String) :
    out ∈ extractSkillsFromText toLowerCase text ↔
      ∃ k ∈ skillKeywords, k.data <:+: (toLowerCase text).data ∧ capitalizeFirst k = out := by
  rw [extractSkillsFromText_eq, List.mem_map]
  constructor
  · rintro ⟨k, hk, rfl⟩
    rw [List.mem_filter] at hk
    exact ⟨k, hk.1, (includes_iff _ _).mp hk.2, rfl⟩
  · rintro ⟨k, hk, hin, rfl⟩
    exact ⟨k, List.mem_filter.mpr ⟨hk, (includes_iff _ _).mpr hin⟩, rfl⟩

theorem capitalizeFirst_injOn_skillKeywords :
    ∀ k ∈ skillKeywords, ∀ k' ∈ skillKeywords,
      capitalizeFirst k = capitalizeFirst k' → k = k' := by
  decide

theorem extractSkillsFromText_drag (toLowerCase : String → String) (text big small : String)
    (hbig : big ∈ skillKeywords) (hsmall : small ∈ skillKeywords)
    (hsub : small.data <:+: big.data)
    (h : capitalizeFirst big ∈ extractSkillsFromText toLowerCase text) :
    capitalizeFirst small ∈ extractSkillsFromText toLowerCase text := by
  rw [mem_extractSkillsFromText_iff] at h ⊢
  obtain ⟨k, hk, hin, hcap⟩ := h
  have hkb : k = big := capitalizeFirst_injOn_skillKeywords k hk big hbig hcap
  subst hkb
  exact ⟨small, hsmall, List.IsInfix.trans hsub hin, rfl⟩

theorem authenticateToken_of_token (verify : String → Option TokenPayload) (h t : String)
    (hsplit : (splitSpace h)[1]? = some t) (ht : t ≠ "") :
    (verify t = none →
        authenticateToken verify (some h) = AuthResult.response 403 "Invalid token") ∧
      (∀ user, verify t = some user →
        authenticateToken verify (some h) = AuthResult.next user) := by
  have hh : h ≠ "" := by
    rintro rfl
    simp [splitSpace, splitSpaceChars] at hsplit
  constructor
  · intro hv
    simp only [authenticateToken, if_neg hh, hsplit, if_neg ht, hv]
  · intro user hv
    simp only [authenticateToken, if_neg hh, hsplit, if_neg ht, hv]

theorem authenticateToken_of_no_token (verify : String → Option TokenPayload)
    (authorization : Option String)
    (h : authorization = none ∨ ∃ h, authorization = some h ∧
      ((splitSpace h)[1]? = none ∨ (splitSpace h)[1]? = some "")) :
    authenticateToken verify authorization
      = AuthResult.response 401 "Access token required" := by
  rcases h with rfl | ⟨h, rfl, hs⟩
  · rfl
  · by_cases hh : h = ""
    · simp [authenticateToken, hh]
    · rcases hs with hs | hs <;> simp [authenticateToken, hh, hs]

theorem step_requestsSent_invariant (s : PostJobState) (e : PostJobEvent)
    (h : s.paymentComplete = false → s.requestsSent = 0) :
    (s.step e).paymentComplete = false → (s.step e).requestsSent = 0 := by
  cases e with
  | submit =>
    simp only [PostJobState.step, handleSubmit]
    cases hpc : s.paymentComplete
    · simpa [hpc] using h
    · simp
  | pay w transfer =>
    simp only [PostJobState.step, handlePayment]
    split_ifs
    · exact h
    · intro hc
      cases hc
    · exact h
  | cancelPayment => exact h
  | edit => exact h

theorem step_paymentComplete (s : PostJobState) (e : PostJobEvent)
    (hs : s.paymentComplete = false) (h : (s.step e).paymentComplete = true) :
    ∃ w transfer, e = PostJobEvent.pay w transfer ∧ w.connected = true ∧
      (sendPayment w transfer platformFee).success = true := by
  cases e with
  | submit => simp [PostJobState.step, handleSubmit, hs] at h
  | pay w transfer =>
    refine ⟨w, transfer, rfl, ?_⟩
    simp only [PostJobState.step, handlePayment] at h
    split_ifs at h with h1 h2
    · simp [hs] at h
    · exact ⟨by simpa using h1, h2⟩
    · simp [hs] at h
  | cancelPayment => simp [PostJobState.step, hs] at h
  | edit => simp [PostJobState.step, hs] at h

theorem run_requestsSent_invariant (events : List PostJobEvent) :
    ∀ s : PostJobState, (s.paymentComplete = false → s.requestsSent = 0) →
      (s.run events).paymentComplete = false → (s.run events).requestsSent = 0 := by
  induction events with
  | nil => intro s h; exact h
  | cons e es ih =>
    intro s h
    exact ih (s.step e) (step_requestsSent_invariant s e h)

theorem run_paymentComplete (events : List PostJobEvent) :
    ∀ s : PostJobState, s.paymentComplete = false → (s.run events).paymentComplete = true →
      ∃ w transfer, PostJobEvent.pay w transfer ∈ events ∧ w.connected = true ∧
        (sendPayment w transfer platformFee).success = true := by
  induction events with
  | nil =>
    intro s hs h
    simp [PostJobState.run, hs] at h
  | cons e es ih =>
    intro s hs h
    by_cases hstep : (s.step e).paymentComplete = true
    · obtain ⟨w, transfer, he, hw, hsucc⟩ := step_paymentComplete s e hs hstep
      exact ⟨w, transfer, he ▸ List.mem_cons_self _ _, hw, hsucc⟩
    · obtain ⟨w, transfer, hmem, hw, hsucc⟩ := ih (s.step e) (by simpa using hstep) h
      exact ⟨w, transfer, List.mem_cons_of_mem _ hmem, hw, hsucc⟩

/-! ## Properties: literal cases, algebraic laws, the middleware and the job form -/

/-- C21: `calculateJobMatch(["React", "Node.js"], ["React", "Python", "SQL"])` is `33`: the
only matching candidate skill is `react`, the denominator is 3, and `1 / 3 * 100` rounds
to `33`. -/
theorem calculateJobMatch_react_example :
    calculateJobMatch toLowerCaseAscii ["React", "Node.js"] ["React", "Python", "SQL"]
        = some 33 ∧
      jobMatches (["React", "Node.js"].map toLowerCaseAscii)
        (["React", "Python", "SQL"].map toLowerCaseAscii) = ["react"] ∧
      matchCount toLowerCaseAscii ["React", "Node.js"] ["React", "Python", "SQL"] = 1 ∧
      ["React", "Python", "SQL"].length = 3 ∧
      roundHalfUpPercent 1 3 = 33 := by
  refine ⟨by decide, by decide, by decide, by decide, ?_⟩
  unfold roundHalfUpPercent
  rw [Int.floor_eq_iff]
  norm_num

/-- C22: `calculateJobMatch(["JavaScript"], ["JavaScript", "TypeScript"])` is `50`: one
matching candidate skill over a denominator of 2. -/
theorem calculateJobMatch_javascript_example :
    calculateJobMatch toLowerCaseAscii ["JavaScript"] ["JavaScript", "TypeScript"]
        = some 50 ∧
      jobMatches (["JavaScript"].map toLowerCaseAscii)
        (["JavaScript", "TypeScript"].map toLowerCaseAscii) = ["javascript"] ∧
      matchCount toLowerCaseAscii ["JavaScript"] ["JavaScript", "TypeScript"] = 1 ∧
      ["JavaScript", "TypeScript"].length = 2 := by
  refine ⟨by decide, by decide, by decide, by decide⟩

/-- C23: for the text `I know Python and React` (which lower-cases to
`i know python and react`) and for every text with the same lower-cased form,
`extractSkillsFromText` returns a list that contains `Python` exactly once and `React`
exactly once; the list is `["Python", "React"]`. -/
theorem extractSkillsFromText_python_react (toLowerCase : String → String) (text : String)
    (hbase : toLowerCase "I know Python and React" = "i know python and react")
    (hvariant : toLowerCase text = toLowerCase "I know Python and React") :
    (extractSkillsFromText toLowerCase text).count "Python" = 1 ∧
      (extractSkillsFromText toLowerCase text).count "React" = 1 ∧
      extractSkillsFromText toLowerCase text = ["Python", "React"] := by
  have h : extractSkillsFromText toLowerCase text = ["Python", "React"] := by
    rw [extractSkillsFromText_eq, hvariant, hbase]
    decide
  rw [h]
  exact ⟨by decide, by decide, rfl⟩

/-- Witness for C23 at the re-cased text `i KNOW pYTHON and REACT`. -/
theorem extractSkillsFromText_python_react_witness :
    (extractSkillsFromText toLowerCaseAscii "i KNOW pYTHON and REACT").count "Python" = 1 ∧
      (extractSkillsFromText toLowerCaseAscii "i KNOW pYTHON and REACT").count "React" = 1 ∧
      extractSkillsFromText toLowerCaseAscii "i KNOW pYTHON and REACT"
        = ["Python", "React"] :=
  extractSkillsFromText_python_react toLowerCaseAscii "i KNOW pYTHON and REACT"
    (by decide) (by decide)

/-- C24: on five recommendations with scores `10, 35, 72, 31, 95` in that order, the
filter, sort and truncate step returns exactly four of them: the fifth, the third, the
second and the fourth, with scores `95, 72, 35, 31`. -/
theorem rankRecommendations_five_scores (r1 r2 r3 r4 r5 : Recommendation)
    (h1 : r1.matchScore = 10) (h2 : r2.matchScore = 35) (h3 : r3.matchScore = 72)
    (h4 : r4.matchScore = 31) (h5 : r5.matchScore = 95) :
    rankRecommendations [r1, r2, r3, r4, r5] = [r5, r3, r2, r4] ∧
      (rankRecommendations [r1, r2, r3, r4, r5]).length = 4 ∧
      (rankRecommendations [r1, r2, r3, r4, r5]).map (fun r => r.matchScore)
        = [95, 72, 35, 31] := by
  have h : rankRecommendations [r1, r2, r3, r4, r5] = [r5, r3, r2, r4] := by
    simp [rankRecommendations, List.filter, h1, h2, h3, h4, h5, List.insertionSort,
      List.orderedInsert]
  rw [h]
  simp [h2, h3, h4, h5]

/-- Witness for C24 on five example jobs. -/
theorem rankRecommendations_five_scores_witness :
    rankRecommendations
        [⟨exampleJob "a" [], 10, reasonText 10⟩, ⟨exampleJob "b" [], 35, reasonText 35⟩,
          ⟨exampleJob "c" [], 72, reasonText 72⟩, ⟨exampleJob "d" [], 31, reasonText 31⟩,
          ⟨exampleJob "e" [], 95, reasonText 95⟩]
        = [⟨exampleJob "e" [], 95, reasonText 95⟩, ⟨exampleJob "c" [], 72, reasonText 72⟩,
          ⟨exampleJob "b" [], 35, reasonText 35⟩, ⟨exampleJob "d" [], 31, reasonText 31⟩] ∧
      (rankRecommendations
        [⟨exampleJob "a" [], 10, reasonText 10⟩, ⟨exampleJob "b" [], 35, reasonText 35⟩,
          ⟨exampleJob "c" [], 72, reasonText 72⟩, ⟨exampleJob "d" [], 31, reasonText 31⟩,
          ⟨exampleJob "e" [], 95, reasonText 95⟩]).length = 4 ∧
      (rankRecommendations
        [⟨exampleJob "a" [], 10, reasonText 10⟩, ⟨exampleJob "b" [], 35, reasonText 35⟩,
          ⟨exampleJob "c" [], 72, reasonText 72⟩, ⟨exampleJob "d" [], 31, reasonText 31⟩,
          ⟨exampleJob "e" [], 95, reasonText 95⟩]).map (fun r => r.matchScore)
        = [95, 72, 35, 31] :=
  rankRecommendations_five_scores _ _ _ _ _ rfl rfl rfl rfl rfl

/-- C25: for a request whose `text` is the empty string the skill-extraction handler
responds with status 400 and `Text is required`, as for an absent text; whenever the
response carries `skills`, they were extracted from a non-empty text. -/
theorem extractSkillsHandler_text_empty (toLowerCase : String → String) :
    extractSkillsHandler toLowerCase (some "") = ⟨400, "Text is required", none⟩ ∧
      extractSkillsHandler toLowerCase (some "") = extractSkillsHandler toLowerCase none ∧
      (∀ text : Option String, ∀ skills : List String,
        (extractSkillsHandler toLowerCase text).skills = some skills →
        ∃ t, text = some t ∧ t ≠ "" ∧ skills = extractSkillsFromText toLowerCase t) := by
  refine ⟨rfl, rfl, ?_⟩
  intro text skills h
  cases text with
  | none => simp [extractSkillsHandler] at h
  | some t =>
    by_cases ht : t = ""
    · subst ht
      simp [extractSkillsHandler] at h
    · refine ⟨t, rfl, ht, ?_⟩
      simp only [extractSkillsHandler, if_neg ht, Option.some.injEq] at h
      exact h.symm

/-- C26: for every text, if the result of `extractSkillsFromText` contains `Javascript` it
contains `Java`; if it contains `Mysql` or `Postgresql` it contains `Sql`; if it contains
`Mongodb` it contains `Go`; and if it contains `Blockchain` it contains `Ai`. -/
theorem extractSkillsFromText_contained_keywords (toLowerCase : String → String)
    (text : String) :
    ("Javascript" ∈ extractSkillsFromText toLowerCase text →
        "Java" ∈ extractSkillsFromText toLowerCase text) ∧
      ("Mysql" ∈ extractSkillsFromText toLowerCase text ∨
          "Postgresql" ∈ extractSkillsFromText toLowerCase text →
        "Sql" ∈ extractSkillsFromText toLowerCase text) ∧
      ("Mongodb" ∈ extractSkillsFromText toLowerCase text →
        "Go" ∈ extractSkillsFromText toLowerCase text) ∧
      ("Blockchain" ∈ extractSkillsFromText toLowerCase text →
        "Ai" ∈ extractSkillsFromText toLowerCase text) := by
  refine ⟨?_, ?_, ?_, ?_⟩
  · exact extractSkillsFromText_drag toLowerCase text "javascript" "java"
      (by decide) (by decide) (by decide)
  · rintro (h | h)
    · exact extractSkillsFromText_drag toLowerCase text "mysql" "sql"
        (by decide) (by decide) (by decide) h
    · exact extractSkillsFromText_drag toLowerCase text "postgresql" "sql"
        (by decide) (by decide) (by decide) h
  · exact extractSkillsFromText_drag toLowerCase text "mongodb" "go"
      (by decide) (by decide) (by decide)
  · exact extractSkillsFromText_drag toLowerCase text "blockchain" "ai"
      (by decide) (by decide) (by decide)

/-- Witness for C26 on two texts. -/
theorem extractSkillsFromText_contained_keywords_witness :
    "Java" ∈ extractSkillsFromText toLowerCaseAscii "JavaScript and MySQL" ∧
      "Sql" ∈ extractSkillsFromText toLowerCaseAscii "JavaScript and MySQL" ∧
      "Go" ∈ extractSkillsFromText toLowerCaseAscii "MongoDB on a blockchain" ∧
      "Ai" ∈ extractSkillsFromText toLowerCaseAscii "MongoDB on a blockchain" :=
  ⟨(extractSkillsFromText_contained_keywords toLowerCaseAscii "JavaScript and MySQL").1
      (by decide),
    (extractSkillsFromText_contained_keywords toLowerCaseAscii "JavaScript and MySQL").2.1
      (Or.inl (by decide)),
    (extractSkillsFromText_contained_keywords toLowerCaseAscii
      "MongoDB on a blockchain").2.2.1 (by decide),
    (extractSkillsFromText_contained_keywords toLowerCaseAscii
      "MongoDB on a blockchain").2.2.2 (by decide)⟩

/-- C27: for every non-empty list of strings `s`, `calculateJobMatch(s, s)` is `100`. -/
theorem calculateJobMatch_self (toLowerCase : String → String) (s : List String)
    (hs : s ≠ []) : calculateJobMatch toLowerCase s s = some 100 := by
  rw [calculateJobMatch_of_ne_nil toLowerCase s s hs hs, matchCount_self,
    percent_round_self s.length (List.length_pos.mpr hs)]

/-- Witness for C27 on a list with a duplicate and an empty string. -/
theorem calculateJobMatch_self_witness :
    calculateJobMatch toLowerCaseAscii ["React", "", "React"] ["React", "", "React"]
      = some 100 :=
  calculateJobMatch_self toLowerCaseAscii ["React", "", "React"] (by decide)

/-- C28: the match score is monotone in the candidate list: for all lists `c`, `j` and every
string `x`, the score of `c ++ [x]` against `j` is at least the score of `c` against `j`. -/
theorem calculateJobMatch_mono_candidate (toLowerCase : String → String)
    (c j : List String) (x : String) :
    ∃ v w : Int, calculateJobMatch toLowerCase (c ++ [x]) j = some v ∧
      calculateJobMatch toLowerCase c j = some w ∧ w ≤ v := by
  have hcx : c ++ [x] ≠ [] := by simp
  by_cases hj : j = []
  · exact ⟨0, 0, calculateJobMatch_of_nil _ _ _ (Or.inr hj),
      calculateJobMatch_of_nil _ _ _ (Or.inr hj), le_rfl⟩
  · by_cases hc : c = []
    · exact ⟨_, 0, calculateJobMatch_of_ne_nil _ _ _ hcx hj,
        calculateJobMatch_of_nil _ _ _ (Or.inl hc), mathRound_nonneg _⟩
    · exact ⟨_, _, calculateJobMatch_of_ne_nil _ _ _ hcx hj,
        calculateJobMatch_of_ne_nil _ _ _ hc hj,
        percent_round_mono _ _ _ (List.length_pos.mpr hj)
          (matchCount_append_singleton toLowerCase c j x)⟩

/-- C29, as stated, fails: the header `Bearer  abc` (two spaces) has a second
space-separated component, the empty string, whose verification fails, yet the middleware
answers 401 `Access token required`, not 403. -/
theorem authenticateToken_status_counterexample :
    (splitSpace "Bearer  abc")[1]? = some "" ∧
      (fun _ : String => (none : Option TokenPayload)) "" = none ∧
      authenticateToken (fun _ => none) (some "Bearer  abc")
        = AuthResult.response 401 "Access token required" ∧
      authenticateToken (fun _ => none) (some "Bearer  abc")
        ≠ AuthResult.response 403 "Invalid token" := by
  refine ⟨by decide, rfl, by decide, by decide⟩

/-- C29 (amended): `next` is invoked if and only if the Authorization header has a non-empty
second space-separated component and verification of that component succeeds; when the
header is missing, or its second component is absent or empty, the response is 401 (and
`next` is not invoked); when the second component is non-empty and its verification fails,
the response is 403 (and `next` is not invoked). -/
theorem authenticateToken_verified_only (verify : String → Option TokenPayload)
    (authorization : Option String) :
    (∀ user, authenticateToken verify authorization = AuthResult.next user ↔
        ∃ h t, authorization = some h ∧ (splitSpace h)[1]? = some t ∧ t ≠ "" ∧
          verify t = some user) ∧
      ((authorization = none ∨ ∃ h, authorization = some h ∧
          ((splitSpace h)[1]? = none ∨ (splitSpace h)[1]? = some "")) →
        authenticateToken verify authorization
          = AuthResult.response 401 "Access token required") ∧
      (∀ h t, authorization = some h → (splitSpace h)[1]? = some t → t ≠ "" →
        verify t = none →
        authenticateToken verify authorization = AuthResult.response 403 "Invalid token") := by
  refine ⟨fun user => ⟨fun hnext => ?_, ?_⟩, authenticateToken_of_no_token verify authorization,
    ?_⟩
  · cases authorization with
    | none => simp [authenticateToken] at hnext
    | some h =>
      cases hs : (splitSpace h)[1]? with
      | none =>
        rw [authenticateToken_of_no_token verify (some h) (Or.inr ⟨h, rfl, Or.inl hs⟩)] at hnext
        cases hnext
      | some t =>
        by_cases ht : t = ""
        · subst ht
          rw [authenticateToken_of_no_token verify (some h)
            (Or.inr ⟨h, rfl, Or.inr hs⟩)] at hnext
          cases hnext
        · cases hv : verify t with
          | none =>
            rw [(authenticateToken_of_token verify h t hs ht).1 hv] at hnext
            cases hnext
          | some u =>
            rw [(authenticateToken_of_token verify h t hs ht).2 u hv] at hnext
            cases hnext
            exact ⟨h, t, rfl, hs, ht, hv⟩
  · rintro ⟨h, t, rfl, hs, ht, hv⟩
    exact (authenticateToken_of_token verify h t hs ht).2 user hv
  · rintro h t rfl hs ht hv
    exact (authenticateToken_of_token verify h t hs ht).1 hv

/-- Witness for C29 (amended): a missing header, a rejected token and an accepted token. -/
theorem authenticateToken_verified_only_witness :
    authenticateToken (fun t => if t = "good" then some ⟨"user-1"⟩ else none) none
        = AuthResult.response 401 "Access token required" ∧
      authenticateToken (fun t => if t = "good" then some ⟨"user-1"⟩ else none)
          (some "Bearer bad")
        = AuthResult.response 403 "Invalid token" ∧
      authenticateToken (fun t => if t = "good" then some ⟨"user-1"⟩ else none)
          (some "Bearer good")
        = AuthResult.next ⟨"user-1"⟩ :=
  ⟨(authenticateToken_verified_only _ none).2.1 (Or.inl rfl),
    (authenticateToken_verified_only _ (some "Bearer bad")).2.2 "Bearer bad" "bad" rfl
      (by decide) (by decide) (by decide),
    ((authenticateToken_verified_only _ (some "Bearer good")).1 ⟨"user-1"⟩).mpr
      ⟨"Bearer good", "good", rfl, by decide, by decide, by decide⟩⟩

/-- C30: in the job form, a submit while `paymentComplete` is false only sets `paymentStep`
and sends nothing; `paymentComplete` becomes true only by a `handlePayment` run with the
wallet connected and a `sendPayment(0.01)` result whose `success` is true; hence, from the
initial state, no request has been sent while `paymentComplete` is false, and
`paymentComplete` is true only after such a payment. -/
theorem postJobForm_payment_gate (events : List PostJobEvent) :
    (∀ s : PostJobState, s.paymentComplete = false →
        s.step PostJobEvent.submit = ⟨true, false, s.loading, s.requestsSent⟩) ∧
      (∀ (s : PostJobState) (e : PostJobEvent), s.paymentComplete = false →
        (s.step e).paymentComplete = true →
        ∃ w transfer, e = PostJobEvent.pay w transfer ∧ w.connected = true ∧
          (sendPayment w transfer platformFee).success = true) ∧
      ((PostJobState.initial.run events).paymentComplete = false →
        (PostJobState.initial.run events).requestsSent = 0) ∧
      ((PostJobState.initial.run events).paymentComplete = true →
        ∃ w transfer, PostJobEvent.pay w transfer ∈ events ∧ w.connected = true ∧
          (sendPayment w transfer platformFee).success = true) := by
  refine ⟨?_, step_paymentComplete, ?_, ?_⟩
  · intro s hs
    simp [PostJobState.step, handleSubmit, hs]
  · exact run_requestsSent_invariant events PostJobState.initial (fun _ => rfl)
  · exact run_paymentComplete events PostJobState.initial rfl

end RizeOs
